import Mathlib

/-!
Verification of the SmartLoad optimization core (`optimizer.py` / `models.py`).

The Python code is embedded shallowly: pydantic models become structures,
money stays in integer cents (`Nat`), calendar dates become ordinal day
numbers (`Nat`, the code only ever compares them), Python `int` bit-sets
become `Nat` with `Nat.testBit` / `|||` / `&&&`, and the recursive
backtracking search with its shared mutable best-result cell becomes an
explicitly state-passing function with a structural fuel argument (the fuel
is provably sufficient at every call site reached from the entry point).
-/

namespace SmartLoad

/-- One order/shipment (`models.Order`).  `payout_cents` is a non-negative
integer (the model validates `ge=0`), weight and volume are positive
integers, dates are embedded as ordinal day numbers. -/
structure Order where
  id : String
  payout_cents : Nat
  weight_lbs : Nat
  volume_cuft : Nat
  origin : String
  destination : String
  pickup_date : Nat
  delivery_date : Nat
  is_hazmat : Bool
deriving DecidableEq

instance : Inhabited Order := ⟨⟨"", 0, 0, 0, "", "", 0, 0, false⟩⟩

/-- Truck capacity constraints (`models.Truck`). -/
structure Truck where
  id : String
  max_weight_lbs : Nat
  max_volume_cuft : Nat
deriving DecidableEq

/-- Result of the optimization algorithm (`optimizer.OptimizationResult`). -/
structure OptimizationResult where
  selected_indices : List Nat
  total_payout_cents : Nat
  total_weight_lbs : Nat
  total_volume_cuft : Nat
deriving DecidableEq

/-- Python `str.strip()`: drop whitespace from both ends of the character
sequence. -/
def pyStrip (s : String) : String :=
  ⟨((s.data.dropWhile Char.isWhitespace).reverse.dropWhile
      Char.isWhitespace).reverse⟩

/-- Python `str.lower()`: case-fold every character. -/
def pyLower (s : String) : String :=
  ⟨s.data.map Char.toLower⟩

/-- `optimizer.normalize_location`: `location.strip().lower()`. -/
def normalize_location (location : String) : String :=
  pyLower (pyStrip location)

/-- `optimizer.check_route_compatibility`: same normalized origin and
destination. -/
def check_route_compatibility (order1 order2 : Order) : Bool :=
  normalize_location order1.origin == normalize_location order2.origin &&
  normalize_location order1.destination == normalize_location order2.destination

/-- `optimizer.check_time_compatibility`:
`max(pickup1, pickup2) <= min(delivery1, delivery2)`. -/
def check_time_compatibility (order1 order2 : Order) : Bool :=
  decide (max order1.pickup_date order2.pickup_date ≤
    min order1.delivery_date order2.delivery_date)

/-- `optimizer.check_hazmat_compatibility`: equal hazmat flags. -/
def check_hazmat_compatibility (order1 order2 : Order) : Bool :=
  order1.is_hazmat == order2.is_hazmat

/-- `optimizer.are_orders_compatible`: all three sub-checks pass. -/
def are_orders_compatible (order1 order2 : Order) : Bool :=
  check_route_compatibility order1 order2 &&
  check_time_compatibility order1 order2 &&
  check_hazmat_compatibility order1 order2

/-- One row of the compatibility bitmask table: the inner loop
`for j in range(n): if i == j or are_orders_compatible(...): row |= 1 << j`
(`optimizer.py` lines 149-152 and 276-279), abstracted over the predicate. -/
def maskOfPred (p : Nat → Bool) (n : Nat) : Nat :=
  (List.range n).foldl (fun m j => if p j then m ||| (1 <<< j) else m) 0

/-- The per-order compatibility bitmasks `compatible_mask` built by both
optimizers: bit `j` of entry `i` is set iff `i == j` or orders `i` and `j`
are pairwise compatible. -/
def compatible_mask (orders : List Order) : List Nat :=
  (List.range orders.length).map fun i =>
    maskOfPred
      (fun j => i == j ||
        are_orders_compatible (orders.getD i default) (orders.getD j default))
      orders.length

/-- `optimizer.build_compatibility_matrix`.  The Python code initializes the
whole matrix to `True` (so the diagonal stays `True`) and fills each
unordered pair `{i, j}`, `i < j`, with one predicate evaluation mirrored to
both `[i][j]` and `[j][i]`; hence the off-diagonal entry at `(i, j)` is the
predicate evaluated at `(min i j, max i j)`. -/
def build_compatibility_matrix (orders : List Order) : List (List Bool) :=
  (List.range orders.length).map fun i =>
    (List.range orders.length).map fun j =>
      if i = j then true
      else
        are_orders_compatible (orders.getD (min i j) default)
          (orders.getD (max i j) default)

/-- The suffix-sum array of `optimizer.py` lines 282-284:
`suffix_payout[i]` is the sum of the payouts at sorted positions `≥ i`. -/
def suffix_payout (payouts : List Nat) (i : Nat) : Nat :=
  (payouts.drop i).sum

/-- The mutable best-result cell `best_result = [payout, mask, weight,
volume]` of the backtracking search. -/
structure Best where
  payout : Nat
  mask : Nat
  weight : Nat
  volume : Nat
deriving DecidableEq

/-- The per-call read-only data of either optimizer: candidate count,
capacities, the extracted payout/weight/volume arrays and the
compatibility bitmasks. -/
structure BTCtx where
  n : Nat
  max_weight : Nat
  max_volume : Nat
  payouts : List Nat
  weights : List Nat
  volumes : List Nat
  cmask : List Nat
deriving DecidableEq

/-- The `for i in range(i0, n)` loop body of `optimizer.backtrack`
(lines 313-336): skip position `i` when its bit is not set in
`allowed_mask` or adding it would exceed a capacity, otherwise recurse
(through `bt`, the recursive call at one less fuel) with the order
included; then continue the loop.  `k` counts the remaining iterations
(`k = n - i` at every call reached from `backtrack`). -/
def btLoop (c : BTCtx) (bt : Nat → Nat → Nat → Nat → Nat → Nat → Best → Best)
    (k i mask payout weight volume allowed : Nat) (best : Best) : Best :=
  match k with
  | 0 => best
  | k + 1 =>
    if i < c.n then
      let best1 :=
        if allowed.testBit i then
          let new_weight := weight + c.weights.getD i 0
          let new_volume := volume + c.volumes.getD i 0
          if new_weight ≤ c.max_weight && new_volume ≤ c.max_volume then
            bt (i + 1) (mask ||| (1 <<< i)) (payout + c.payouts.getD i 0)
              new_weight new_volume (allowed &&& c.cmask.getD i 0) best
          else best
        else best
      btLoop c bt k (i + 1) mask payout weight volume allowed best1
    else best

/-- `optimizer.backtrack` (lines 293-336), with the shared mutable
`best_result` threaded explicitly: first update the best cell if the
current payout strictly improves it, then prune when even the optimistic
upper bound `current_payout + suffix_payout[idx]` cannot beat the best,
otherwise run the include/continue loop from `idx`.  `fuel` only bounds
the recursion depth; `fuel = n + 1 - idx` suffices. -/
def backtrack (c : BTCtx) :
    Nat → Nat → Nat → Nat → Nat → Nat → Nat → Best → Best
  | 0, _, _, _, _, _, _, best => best
  | fuel + 1, idx, mask, payout, weight, volume, allowed, best =>
    let best1 :=
      if best.payout < payout then ⟨payout, mask, weight, volume⟩ else best
    if payout + suffix_payout c.payouts idx ≤ best1.payout then best1
    else
      btLoop c (backtrack c fuel) (c.n - idx) idx mask payout weight volume
        allowed best1

/-- The total order in which `sorted(range(n), key=payout, reverse=True)`
(line 271) lists the candidate positions: payout strictly greater first,
ties in original position order (Python's sort is stable, and a stable
payout-descending sort of distinct positions is exactly the unique sort by
this relation). -/
def payoutDescLE (orders : List Order) (a b : Nat) : Prop :=
  (orders.getD b default).payout_cents < (orders.getD a default).payout_cents ∨
  ((orders.getD a default).payout_cents = (orders.getD b default).payout_cents ∧
    a ≤ b)

instance (orders : List Order) : DecidableRel (payoutDescLE orders) := fun _ _ =>
  inferInstanceAs (Decidable (_ ∨ _))

instance (orders : List Order) : IsTotal Nat (payoutDescLE orders) :=
  ⟨fun a b => by unfold payoutDescLE; omega⟩

instance (orders : List Order) : IsTrans Nat (payoutDescLE orders) :=
  ⟨fun a b c hab hbc => by
    unfold payoutDescLE at hab hbc ⊢; omega⟩

/-- `sorted_indices` of `optimizer.py` line 271: the candidate positions in
payout-descending order. -/
def sortedIndices (orders : List Order) : List Nat :=
  List.insertionSort (payoutDescLE orders) (List.range orders.length)

/-- `sorted_orders` of line 272. -/
def sortedOrders (orders : List Order) : List Order :=
  (sortedIndices orders).map fun i => orders.getD i default

/-- The read-only data assembled by `optimize_load_backtracking` before the
search (lines 267-289): capacities, per-sorted-position payout, weight and
volume arrays, and the compatibility bitmasks over the sorted orders. -/
def btCtx (truck : Truck) (orders : List Order) : BTCtx :=
  { n := orders.length
    max_weight := truck.max_weight_lbs
    max_volume := truck.max_volume_cuft
    payouts := (sortedOrders orders).map Order.payout_cents
    weights := (sortedOrders orders).map Order.weight_lbs
    volumes := (sortedOrders orders).map Order.volume_cuft
    cmask := compatible_mask (sortedOrders orders) }

/-- The top-level call `backtrack(0, 0, 0, 0, 0, (1 << n) - 1)` of line 339
with `best_result` initialized to `[0, 0, 0, 0]`. -/
def btBest (truck : Truck) (orders : List Order) : Best :=
  backtrack (btCtx truck orders) (orders.length + 1) 0 0 0 0 0
    ((1 <<< orders.length) - 1) ⟨0, 0, 0, 0⟩

/-- `optimizer.optimize_load_backtracking` (lines 249-353): early return on
the empty input, otherwise run the search and map the winning bitmask back
to original indices (`selected_indices.append(sorted_indices[i])` for each
set bit `i` in ascending sorted-position order, lines 341-346). -/
def optimize_load_backtracking (truck : Truck) (orders : List Order) :
    OptimizationResult :=
  if orders.length = 0 then ⟨[], 0, 0, 0⟩
  else
    { selected_indices :=
        ((List.range orders.length).filter
            (fun i => (btBest truck orders).mask.testBit i)).map
          fun i => (sortedIndices orders).getD i 0
      total_payout_cents := (btBest truck orders).payout
      total_weight_lbs := (btBest truck orders).weight
      total_volume_cuft := (btBest truck orders).volume }

/-- `optimizer.optimize_load` (lines 356-362): delegates to the
backtracking optimizer. -/
def optimize_load (truck : Truck) (orders : List Order) : OptimizationResult :=
  optimize_load_backtracking truck orders

/-- The accumulation state of the totals loop in
`optimize_load_bitmask_dp` (lines 195-212). -/
structure ScanState where
  total_weight : Nat
  total_volume : Nat
  total_payout : Nat
  valid : Bool
deriving DecidableEq

/-- One step of the totals loop of `optimize_load_bitmask_dp`
(lines 201-212): when still valid and bit `i` is set, add order `i` to the
running totals and fail validity as soon as a capacity is exceeded;
otherwise leave the state unchanged (which models the `break`). -/
def scan_step (c : BTCtx) (mask : Nat) (s : ScanState) (i : Nat) : ScanState :=
  if s.valid && mask.testBit i then
    let tw := s.total_weight + c.weights.getD i 0
    let tv := s.total_volume + c.volumes.getD i 0
    { total_weight := tw
      total_volume := tv
      total_payout := s.total_payout + c.payouts.getD i 0
      valid := decide (tw ≤ c.max_weight) && decide (tv ≤ c.max_volume) }
  else s

/-- The totals loop of `optimize_load_bitmask_dp` lines 195-212: walk the
set bits of `mask` in ascending order (the Python code extracts them with
the lowest-set-bit trick), accumulating weight, volume and payout, and
stop accumulating (`break`) as soon as a capacity is exceeded. -/
def subset_scan (c : BTCtx) (mask : Nat) : ScanState :=
  (List.range c.n).foldl (scan_step c mask) ⟨0, 0, 0, true⟩

/-- `is_valid_subset` of `optimize_load_bitmask_dp` (lines 164-173): every
order in the mask must be compatible with all others in the mask, i.e. for
each set bit `i`, `compatible_mask[i] & mask == mask` (the Python loop
walks the set bits via the lowest-set-bit trick, i.e. ascending). -/
def is_valid_subset (c : BTCtx) (mask : Nat) : Bool :=
  (List.range c.n).all fun i =>
    !mask.testBit i || (c.cmask.getD i 0 &&& mask == mask)

/-- One iteration of the subset enumeration loop of
`optimize_load_bitmask_dp` (lines 191-229): compute the totals with the
early capacity break, then the three `continue` guards, then update the
best cell. -/
def dp_step (c : BTCtx) (b : Best) (mask : Nat) : Best :=
  let s := subset_scan c mask
  if !s.valid then b
  else if s.total_payout ≤ b.payout then b
  else if !is_valid_subset c mask then b
  else ⟨s.total_payout, mask, s.total_weight, s.total_volume⟩

/-- The read-only data assembled by `optimize_load_bitmask_dp`
(lines 143-157): capacities, per-input-position arrays and compatibility
bitmasks — the DP optimizer does not sort. -/
def dpCtx (truck : Truck) (orders : List Order) : BTCtx :=
  { n := orders.length
    max_weight := truck.max_weight_lbs
    max_volume := truck.max_volume_cuft
    payouts := orders.map Order.payout_cents
    weights := orders.map Order.weight_lbs
    volumes := orders.map Order.volume_cuft
    cmask := compatible_mask orders }

/-- The enumeration `for mask in range(1, 1 << n)` of line 191 with the
best-so-far variables threaded through. -/
def dpBest (truck : Truck) (orders : List Order) : Best :=
  (List.range' 1 (2 ^ orders.length - 1)).foldl
    (dp_step (dpCtx truck orders)) ⟨0, 0, 0, 0⟩

/-- `optimizer.optimize_load_bitmask_dp` (lines 118-246).  The extraction
loop of lines 232-239 collects the set bits of the winning mask in
ascending order; the winning mask has no bits at or above `n`. -/
def optimize_load_bitmask_dp (truck : Truck) (orders : List Order) :
    OptimizationResult :=
  if orders.length = 0 then ⟨[], 0, 0, 0⟩
  else
    { selected_indices :=
        (List.range orders.length).filter
          fun i => (dpBest truck orders).mask.testBit i
      total_payout_cents := (dpBest truck orders).payout
      total_weight_lbs := (dpBest truck orders).weight
      total_volume_cuft := (dpBest truck orders).volume }

/-! ### Specification-side definitions

Sets of candidate positions are represented as `Finset Nat`; the bit-sets
of the code are related to them through `bitsOf`. -/

/-- Sum of the entries of `xs` at the positions in `S` (a position beyond
the array contributes the `getD` default 0). -/
def setSum (xs : List Nat) (S : Finset Nat) : Nat :=
  ∑ i ∈ S, xs.getD i 0

/-- The set of bit positions below `n` that are set in `mask`. -/
def bitsOf (mask n : Nat) : Finset Nat :=
  (Finset.range n).filter fun i => mask.testBit i

/-- A feasible selection relative to the arrays and bitmasks of a search
context: valid positions, within both capacities, and pairwise allowed by
the compatibility bitmasks. -/
def Feasible (c : BTCtx) (S : Finset Nat) : Prop :=
  (∀ i ∈ S, i < c.n) ∧
  setSum c.weights S ≤ c.max_weight ∧
  setSum c.volumes S ≤ c.max_volume ∧
  ∀ i ∈ S, ∀ j ∈ S, (c.cmask.getD i 0).testBit j

/-- Total payout of the orders at a set of input positions. -/
def subsetPayout (orders : List Order) (S : Finset Nat) : Nat :=
  ∑ p ∈ S, (orders.getD p default).payout_cents

/-- Total weight of the orders at a set of input positions. -/
def subsetWeight (orders : List Order) (S : Finset Nat) : Nat :=
  ∑ p ∈ S, (orders.getD p default).weight_lbs

/-- Total volume of the orders at a set of input positions. -/
def subsetVolume (orders : List Order) (S : Finset Nat) : Nat :=
  ∑ p ∈ S, (orders.getD p default).volume_cuft

/-- A feasible subset of the input orders in the sense of the spec: all
positions valid, both capacity limits respected, and every pair of
distinct members pairwise compatible. -/
def subsetFeasible (truck : Truck) (orders : List Order) (S : Finset Nat) :
    Prop :=
  (∀ p ∈ S, p < orders.length) ∧
  subsetWeight orders S ≤ truck.max_weight_lbs ∧
  subsetVolume orders S ≤ truck.max_volume_cuft ∧
  ∀ p ∈ S, ∀ q ∈ S, p ≠ q →
    are_orders_compatible (orders.getD p default) (orders.getD q default) = true

instance (truck : Truck) (orders : List Order) (S : Finset Nat) :
    Decidable (subsetFeasible truck orders S) := by
  unfold subsetFeasible
  infer_instance

/-- Invariant of the shared best cell: all recorded bits are valid sorted
positions, the aggregates are the sums over the recorded mask, and the
recorded selection is feasible. -/
def BestInv (c : BTCtx) (b : Best) : Prop :=
  (∀ j, b.mask.testBit j → j < c.n) ∧
  b.payout = setSum c.payouts (bitsOf b.mask c.n) ∧
  b.weight = setSum c.weights (bitsOf b.mask c.n) ∧
  b.volume = setSum c.volumes (bitsOf b.mask c.n) ∧
  Feasible c (bitsOf b.mask c.n)

/-- Invariant of a `backtrack` call state: all chosen bits lie below the
current index, the running aggregates are the sums over the chosen mask,
the chosen selection is feasible, and `allowed` holds exactly the
positions below `n` compatible with everything chosen. -/
def StateInv (c : BTCtx) (idx mask payout weight volume allowed : Nat) :
    Prop :=
  (∀ j, mask.testBit j → j < idx) ∧
  payout = setSum c.payouts (bitsOf mask c.n) ∧
  weight = setSum c.weights (bitsOf mask c.n) ∧
  volume = setSum c.volumes (bitsOf mask c.n) ∧
  Feasible c (bitsOf mask c.n) ∧
  ∀ j, allowed.testBit j ↔
    (j < c.n ∧ ∀ k, mask.testBit k → (c.cmask.getD k 0).testBit j)

/-- Well-formedness of a search context: the arrays have length `n`, the
bitmask table has its diagonal set, and it is symmetric below `n`. -/
def CtxWF (c : BTCtx) : Prop :=
  c.payouts.length = c.n ∧ c.weights.length = c.n ∧ c.volumes.length = c.n ∧
  (∀ i, i < c.n → (c.cmask.getD i 0).testBit i = true) ∧
  ∀ i j, i < c.n → j < c.n →
    (c.cmask.getD i 0).testBit j = (c.cmask.getD j 0).testBit i

/-- A mask is clean when every selected position carries a non-zero
payout. -/
def CleanMask (c : BTCtx) (mask : Nat) : Prop :=
  ∀ j, mask.testBit j → c.payouts.getD j 0 ≠ 0

/-- The payout array is sorted in non-increasing order. -/
def SortedDesc (c : BTCtx) : Prop :=
  ∀ a b, a ≤ b → b < c.n → c.payouts.getD b 0 ≤ c.payouts.getD a 0

/-! ### Concrete instances used to exercise the theorems -/

/-- A roomy truck. -/
def exTruck : Truck := ⟨"truck-1", 100, 100⟩

/-- A low-payout order, compatible with `exOrderB`. -/
def exOrderA : Order := ⟨"A", 5, 10, 10, "x", "y", 1, 3, false⟩

/-- A high-payout order, compatible with `exOrderA`. -/
def exOrderB : Order := ⟨"B", 7, 10, 10, "x", "y", 2, 4, false⟩

/-- Two compatible orders with distinct payouts, in payout-ascending input
order. -/
def exOrders : List Order := [exOrderA, exOrderB]

/-- A truck too small for any order of `infOrders`. -/
def infTruck : Truck := ⟨"small", 1, 1⟩

/-- A single order exceeding both capacities of `infTruck`. -/
def infOrders : List Order := [⟨"big", 10, 5, 5, "x", "y", 1, 2, false⟩]

/-! ### Basic facts about bit-sets, sums and the derived tables -/

theorem getD_eq_get {α : Type _} {l : List α} {i : Nat} (d : α)
    (h : i < l.length) : l.getD i d = l[i] := by
  rw [List.getD_eq_getElem?_getD, List.getElem?_eq_getElem h, Option.getD_some]

theorem mem_bitsOf {mask n i : Nat} :
    i ∈ bitsOf mask n ↔ i < n ∧ mask.testBit i := by
  simp [bitsOf, Finset.mem_filter, Finset.mem_range]

theorem bitsOf_zero (n : Nat) : bitsOf 0 n = ∅ := by
  ext i; simp [mem_bitsOf]

theorem setSum_empty (xs : List Nat) : setSum xs ∅ = 0 := rfl

theorem setSum_mono (xs : List Nat) {S T : Finset Nat} (h : S ⊆ T) :
    setSum xs S ≤ setSum xs T :=
  Finset.sum_le_sum_of_subset h

theorem setSum_insert (xs : List Nat) {S : Finset Nat} {i : Nat}
    (h : i ∉ S) : setSum xs (insert i S) = xs.getD i 0 + setSum xs S :=
  Finset.sum_insert h

theorem setSum_union (xs : List Nat) {S T : Finset Nat}
    (h : Disjoint S T) : setSum xs (S ∪ T) = setSum xs S + setSum xs T :=
  Finset.sum_union h

theorem bitsOf_or_shiftLeft {mask n : Nat} {i : Nat} (hin : i < n) :
    bitsOf (mask ||| 1 <<< i) n = insert i (bitsOf mask n) := by
  ext j
  simp only [mem_bitsOf, Finset.mem_insert, Nat.testBit_or, Nat.one_shiftLeft,
    Nat.testBit_two_pow, Bool.or_eq_true, decide_eq_true_eq]
  constructor
  · rintro ⟨hj, hbit | hij⟩
    · exact Or.inr ⟨hj, hbit⟩
    · exact Or.inl hij.symm
  · rintro (rfl | ⟨hj, hbit⟩)
    · exact ⟨hin, Or.inr rfl⟩
    · exact ⟨hj, Or.inl hbit⟩

theorem not_mem_bitsOf_of_testBit {mask n i : Nat}
    (h : mask.testBit i = false) : i ∉ bitsOf mask n := by
  simp [mem_bitsOf, h]

theorem maskOfPred_testBit (p : Nat → Bool) :
    ∀ n j, (maskOfPred p n).testBit j = (decide (j < n) && p j) := by
  intro n
  induction n with
  | zero => intro j; simp [maskOfPred]
  | succ n ih =>
    intro j
    have hstep : maskOfPred p (n + 1) =
        if p n then maskOfPred p n ||| (1 <<< n) else maskOfPred p n := by
      unfold maskOfPred
      rw [List.range_succ, List.foldl_append, List.foldl_cons, List.foldl_nil]
    rw [hstep]
    by_cases hp : p n
    · rw [if_pos hp, Nat.testBit_or, ih, Nat.one_shiftLeft,
        Nat.testBit_two_pow]
      by_cases hj : j = n
      · subst hj
        simp [hp, Nat.lt_irrefl, Nat.lt_succ_self]
      · have h1 : decide (n = j) = false := by simp [Ne.symm hj]
        have h2 : decide (j < n + 1) = decide (j < n) := by
          rcases Nat.lt_or_ge j n with h | h
          · simp [h, Nat.lt_succ_of_lt h]
          · have h3 : ¬j < n := by omega
            have h4 : ¬j < n + 1 := by omega
            simp [h3, h4]
        rw [h1, h2]
        simp
    · rw [if_neg hp, ih]
      by_cases hj : j = n
      · subst hj
        simp [hp]
      · have h2 : decide (j < n + 1) = decide (j < n) := by
          rcases Nat.lt_or_ge j n with h | h
          · simp [h, Nat.lt_succ_of_lt h]
          · have h3 : ¬j < n := by omega
            have h4 : ¬j < n + 1 := by omega
            simp [h3, h4]
        rw [h2]

theorem maskOfPred_lt (p : Nat → Bool) (n : Nat) : maskOfPred p n < 2 ^ n := by
  by_contra hge
  obtain ⟨i, hi, hbit⟩ :=
    Nat.ge_two_pow_implies_high_bit_true (Nat.le_of_not_lt hge)
  rw [maskOfPred_testBit] at hbit
  have : i < n := by
    rcases Bool.and_eq_true _ _ |>.mp hbit with ⟨h1, _⟩
    exact of_decide_eq_true h1
  omega

theorem compatible_mask_getD {orders : List Order} {i : Nat}
    (h : i < orders.length) :
    (compatible_mask orders).getD i 0 =
      maskOfPred
        (fun j => i == j ||
          are_orders_compatible (orders.getD i default)
            (orders.getD j default))
        orders.length := by
  unfold compatible_mask
  rw [List.getD_eq_getElem?_getD, List.getElem?_map, List.getElem?_range h,
    Option.map_some', Option.getD_some]

theorem compatible_mask_testBit {orders : List Order} {i j : Nat}
    (hi : i < orders.length) :
    ((compatible_mask orders).getD i 0).testBit j =
      (decide (j < orders.length) &&
        (i == j ||
          are_orders_compatible (orders.getD i default)
            (orders.getD j default))) := by
  rw [compatible_mask_getD hi, maskOfPred_testBit]

theorem beq_symm {α : Type _} [BEq α] [LawfulBEq α] (a b : α) :
    (a == b) = (b == a) := by
  by_cases h : a = b
  · subst h; rfl
  · rw [beq_eq_false_iff_ne.mpr h, beq_eq_false_iff_ne.mpr (Ne.symm h)]

theorem are_orders_compatible_symm (a b : Order) :
    are_orders_compatible a b = are_orders_compatible b a := by
  simp only [are_orders_compatible, check_route_compatibility,
    check_time_compatibility, check_hazmat_compatibility,
    Nat.max_comm a.pickup_date b.pickup_date,
    Nat.min_comm a.delivery_date b.delivery_date]
  rw [beq_symm (normalize_location a.origin) (normalize_location b.origin),
    beq_symm (normalize_location a.destination)
      (normalize_location b.destination),
    beq_symm a.is_hazmat b.is_hazmat]

theorem suffix_payout_eq_zero {xs : List Nat} {i : Nat}
    (h : xs.length ≤ i) : suffix_payout xs i = 0 := by
  unfold suffix_payout
  rw [List.drop_eq_nil_of_le h, List.sum_nil]

theorem suffix_payout_step {xs : List Nat} {i : Nat} (h : i < xs.length) :
    suffix_payout xs i = xs.getD i 0 + suffix_payout xs (i + 1) := by
  unfold suffix_payout
  rw [List.drop_eq_getElem_cons h, List.sum_cons, getD_eq_get 0 h]

theorem setSum_le_suffix_aux (xs : List Nat) :
    ∀ (k i : Nat), xs.length - i ≤ k → ∀ T : Finset Nat,
      (∀ j ∈ T, i ≤ j ∧ j < xs.length) →
      setSum xs T ≤ suffix_payout xs i := by
  intro k
  induction k with
  | zero =>
    intro i hk T hT
    have hT0 : T = ∅ := Finset.eq_empty_of_forall_not_mem fun j hj => by
      have := hT j hj; omega
    subst hT0
    exact Nat.zero_le _
  | succ k ih =>
    intro i hk T hT
    by_cases hlen : i < xs.length
    · rw [suffix_payout_step hlen]
      by_cases hiT : i ∈ T
      · have hsplit : xs.getD i 0 + setSum xs (T.erase i) = setSum xs T :=
          Finset.add_sum_erase T (fun j => xs.getD j 0) hiT
        have herase : setSum xs (T.erase i) ≤ suffix_payout xs (i + 1) := by
          refine ih (i + 1) (by omega) _ fun j hj => ?_
          have hj' := Finset.mem_erase.mp hj
          have := hT j hj'.2
          have := hj'.1
          omega
        omega
      · have : setSum xs T ≤ suffix_payout xs (i + 1) := by
          refine ih (i + 1) (by omega) T fun j hj => ?_
          have := hT j hj
          have : j ≠ i := fun hji => hiT (hji ▸ hj)
          omega
        omega
    · have hT0 : T = ∅ := Finset.eq_empty_of_forall_not_mem fun j hj => by
        have := hT j hj; omega
      subst hT0
      exact Nat.zero_le _

theorem setSum_le_suffix (xs : List Nat) {T : Finset Nat} {i : Nat}
    (hT : ∀ j ∈ T, i ≤ j ∧ j < xs.length) :
    setSum xs T ≤ suffix_payout xs i :=
  setSum_le_suffix_aux xs xs.length i (by omega) T hT

/-! ### The payout-descending permutation -/

theorem sortedIndices_perm (orders : List Order) :
    (sortedIndices orders).Perm (List.range orders.length) :=
  List.perm_insertionSort _ _

theorem sortedIndices_length (orders : List Order) :
    (sortedIndices orders).length = orders.length := by
  rw [sortedIndices, List.length_insertionSort, List.length_range]

theorem sortedIndices_nodup (orders : List Order) :
    (sortedIndices orders).Nodup :=
  ((sortedIndices_perm orders).symm).nodup (List.nodup_range _)

theorem mem_sortedIndices {orders : List Order} {i : Nat} :
    i ∈ sortedIndices orders ↔ i < orders.length := by
  rw [sortedIndices, List.mem_insertionSort, List.mem_range]

theorem sortedIndices_getD_lt {orders : List Order} {i : Nat}
    (h : i < orders.length) :
    (sortedIndices orders).getD i 0 < orders.length := by
  have hlen : i < (sortedIndices orders).length := by
    rw [sortedIndices_length]; exact h
  rw [getD_eq_get 0 hlen]
  exact mem_sortedIndices.mp (List.getElem_mem hlen)

theorem sortedIndices_inj {orders : List Order} {i j : Nat}
    (hi : i < orders.length) (hj : j < orders.length)
    (h : (sortedIndices orders).getD i 0 = (sortedIndices orders).getD j 0) :
    i = j := by
  have hi' : i < (sortedIndices orders).length := by
    rw [sortedIndices_length]; exact hi
  have hj' : j < (sortedIndices orders).length := by
    rw [sortedIndices_length]; exact hj
  rw [getD_eq_get 0 hi', getD_eq_get 0 hj'] at h
  exact ((sortedIndices_nodup orders).getElem_inj_iff).mp h

theorem sortedIndices_surj {orders : List Order} {p : Nat}
    (hp : p < orders.length) :
    ∃ i, i < orders.length ∧ (sortedIndices orders).getD i 0 = p := by
  have hmem : p ∈ sortedIndices orders := mem_sortedIndices.mpr hp
  obtain ⟨i, hi, hget⟩ := List.mem_iff_getElem.mp hmem
  refine ⟨i, ?_, ?_⟩
  · rw [sortedIndices_length] at hi; exact hi
  · rw [getD_eq_get 0 hi]; exact hget

theorem sortedIndices_desc {orders : List Order} {i j : Nat} (hij : i < j)
    (hj : j < orders.length) :
    (orders.getD ((sortedIndices orders).getD j 0) default).payout_cents ≤
      (orders.getD ((sortedIndices orders).getD i 0) default).payout_cents := by
  have hs : List.Sorted (payoutDescLE orders) (sortedIndices orders) :=
    List.sorted_insertionSort _ _
  have hi' : i < (sortedIndices orders).length := by
    rw [sortedIndices_length]; omega
  have hj' : j < (sortedIndices orders).length := by
    rw [sortedIndices_length]; exact hj
  have hrel := List.pairwise_iff_getElem.mp hs i j hi' hj' hij
  rw [getD_eq_get 0 hi', getD_eq_get 0 hj']
  unfold payoutDescLE at hrel
  omega

theorem getD_map {α β : Type _} (f : α → β) (l : List α) (d : β) (d' : α)
    {i : Nat} (h : i < l.length) : (l.map f).getD i d = f (l.getD i d') := by
  have h' : i < (l.map f).length := by rw [List.length_map]; exact h
  rw [getD_eq_get d h', getD_eq_get d' h, List.getElem_map]

theorem sortedOrders_length (orders : List Order) :
    (sortedOrders orders).length = orders.length := by
  rw [sortedOrders, List.length_map, sortedIndices_length]

theorem sortedOrders_getD {orders : List Order} {i : Nat}
    (h : i < orders.length) :
    (sortedOrders orders).getD i default =
      orders.getD ((sortedIndices orders).getD i 0) default := by
  unfold sortedOrders
  have h' : i < (sortedIndices orders).length := by
    rw [sortedIndices_length]; exact h
  rw [getD_map _ _ default 0 h']

/-! ### The backtracking search context -/

theorem btCtx_n (truck : Truck) (orders : List Order) :
    (btCtx truck orders).n = orders.length := rfl

theorem btCtx_payouts_getD {truck : Truck} {orders : List Order} {i : Nat}
    (h : i < orders.length) :
    (btCtx truck orders).payouts.getD i 0 =
      (orders.getD ((sortedIndices orders).getD i 0) default).payout_cents := by
  show ((sortedOrders orders).map Order.payout_cents).getD i 0 = _
  rw [getD_map _ _ 0 default (by rw [sortedOrders_length]; exact h),
    sortedOrders_getD h]

theorem btCtx_weights_getD {truck : Truck} {orders : List Order} {i : Nat}
    (h : i < orders.length) :
    (btCtx truck orders).weights.getD i 0 =
      (orders.getD ((sortedIndices orders).getD i 0) default).weight_lbs := by
  show ((sortedOrders orders).map Order.weight_lbs).getD i 0 = _
  rw [getD_map _ _ 0 default (by rw [sortedOrders_length]; exact h),
    sortedOrders_getD h]

theorem btCtx_volumes_getD {truck : Truck} {orders : List Order} {i : Nat}
    (h : i < orders.length) :
    (btCtx truck orders).volumes.getD i 0 =
      (orders.getD ((sortedIndices orders).getD i 0) default).volume_cuft := by
  show ((sortedOrders orders).map Order.volume_cuft).getD i 0 = _
  rw [getD_map _ _ 0 default (by rw [sortedOrders_length]; exact h),
    sortedOrders_getD h]

theorem btCtx_cmask_testBit {truck : Truck} {orders : List Order} {i j : Nat}
    (hi : i < orders.length) :
    ((btCtx truck orders).cmask.getD i 0).testBit j =
      (decide (j < orders.length) &&
        (i == j ||
          are_orders_compatible ((sortedOrders orders).getD i default)
            ((sortedOrders orders).getD j default))) := by
  show ((compatible_mask (sortedOrders orders)).getD i 0).testBit j = _
  rw [compatible_mask_testBit (by rw [sortedOrders_length]; exact hi),
    sortedOrders_length]

theorem btCtx_wf (truck : Truck) (orders : List Order) :
    CtxWF (btCtx truck orders) := by
  refine ⟨?_, ?_, ?_, ?_, ?_⟩
  · show ((sortedOrders orders).map _).length = orders.length
    rw [List.length_map, sortedOrders_length]
  · show ((sortedOrders orders).map _).length = orders.length
    rw [List.length_map, sortedOrders_length]
  · show ((sortedOrders orders).map _).length = orders.length
    rw [List.length_map, sortedOrders_length]
  · intro i hi
    rw [btCtx_n] at hi
    rw [btCtx_cmask_testBit hi]
    simp [hi]
  · intro i j hi hj
    rw [btCtx_n] at hi hj
    rw [btCtx_cmask_testBit hi, btCtx_cmask_testBit hj]
    have hdi : decide (i < orders.length) = true := by simp [hi]
    have hdj : decide (j < orders.length) = true := by simp [hj]
    rw [hdi, hdj, Bool.true_and, Bool.true_and, beq_symm i j,
      are_orders_compatible_symm]

theorem btCtx_sortedDesc (truck : Truck) (orders : List Order) :
    SortedDesc (btCtx truck orders) := by
  intro a b hab hb
  rw [btCtx_n] at hb
  rcases Nat.eq_or_lt_of_le hab with rfl | hlt
  · exact Nat.le_refl _
  · rw [btCtx_payouts_getD (i := a) (by omega), btCtx_payouts_getD hb]
    exact sortedIndices_desc hlt hb

/-! ### The backtracking search: monotonicity of the best cell -/

theorem btLoop_mono {c : BTCtx}
    {bt : Nat → Nat → Nat → Nat → Nat → Nat → Best → Best}
    (Hbt : ∀ i m p w v a b, (b : Best).payout ≤ (bt i m p w v a b).payout) :
    ∀ k i mask payout w v allowed best,
      best.payout ≤ (btLoop c bt k i mask payout w v allowed best).payout := by
  intro k
  induction k with
  | zero => intro i mask payout w v allowed best; exact Nat.le_refl _
  | succ k ih =>
    intro i mask payout w v allowed best
    simp only [btLoop]
    by_cases hi : i < c.n
    · rw [if_pos hi]
      by_cases ha : allowed.testBit i
      · rw [if_pos ha]
        by_cases hcap : (w + c.weights.getD i 0 ≤ c.max_weight &&
            v + c.volumes.getD i 0 ≤ c.max_volume) = true
        · rw [if_pos hcap]
          exact Nat.le_trans (Hbt _ _ _ _ _ _ _) (ih _ _ _ _ _ _ _)
        · rw [if_neg hcap]
          exact ih _ _ _ _ _ _ _
      · rw [if_neg ha]
        exact ih _ _ _ _ _ _ _
    · rw [if_neg hi]

theorem backtrack_mono {c : BTCtx} :
    ∀ fuel idx mask payout w v allowed best,
      best.payout ≤ (backtrack c fuel idx mask payout w v allowed best).payout := by
  intro fuel
  induction fuel with
  | zero => intro idx mask payout w v allowed best; exact Nat.le_refl _
  | succ fuel ih =>
    intro idx mask payout w v allowed best
    simp only [backtrack]
    set best1 :=
      if best.payout < payout then (⟨payout, mask, w, v⟩ : Best) else best
      with hbest1
    have h1 : best.payout ≤ best1.payout := by
      rw [hbest1]
      by_cases h : best.payout < payout
      · rw [if_pos h]; exact Nat.le_of_lt h
      · rw [if_neg h]
    by_cases hprune : payout + suffix_payout c.payouts idx ≤ best1.payout
    · rw [if_pos hprune]; exact h1
    · rw [if_neg hprune]
      exact Nat.le_trans h1 (btLoop_mono (fun i m p w' v' a b => ih i m p w' v' a b) _ _ _ _ _ _ _ _)

/-! ### The backtracking search: soundness of the best cell -/

theorem stateInv_weaken {c : BTCtx} {i mask payout w v allowed : Nat}
    (h : StateInv c i mask payout w v allowed) :
    StateInv c (i + 1) mask payout w v allowed := by
  obtain ⟨h1, h2, h3, h4, h5, h6⟩ := h
  exact ⟨fun j hj => Nat.lt_succ_of_lt (h1 j hj), h2, h3, h4, h5, h6⟩

theorem mask_testBit_self_false {c : BTCtx} {i mask payout w v allowed : Nat}
    (h : StateInv c i mask payout w v allowed) : mask.testBit i = false := by
  by_contra hbit
  have := h.1 i (by revert hbit; cases mask.testBit i <;> simp)
  omega

theorem stateInv_include {c : BTCtx} (cwf : CtxWF c)
    {i mask payout w v allowed : Nat} (hi : i < c.n)
    (hSI : StateInv c i mask payout w v allowed)
    (hallow : allowed.testBit i = true)
    (hw : w + c.weights.getD i 0 ≤ c.max_weight)
    (hv : v + c.volumes.getD i 0 ≤ c.max_volume) :
    StateInv c (i + 1) (mask ||| 1 <<< i) (payout + c.payouts.getD i 0)
      (w + c.weights.getD i 0) (v + c.volumes.getD i 0)
      (allowed &&& c.cmask.getD i 0) := by
  obtain ⟨h1, h2, h3, h4, h5, h6⟩ := hSI
  have hself : mask.testBit i = false := by
    by_contra hbit
    have := h1 i (by revert hbit; cases mask.testBit i <;> simp)
    omega
  have hnotmem : i ∉ bitsOf mask c.n := not_mem_bitsOf_of_testBit hself
  have hbitseq : bitsOf (mask ||| 1 <<< i) c.n = insert i (bitsOf mask c.n) :=
    bitsOf_or_shiftLeft hi
  have hcompi : ∀ k, mask.testBit k → (c.cmask.getD k 0).testBit i :=
    ((h6 i).mp hallow).2
  refine ⟨?_, ?_, ?_, ?_, ?_, ?_⟩
  · intro j hj
    rw [Nat.testBit_or, Nat.one_shiftLeft, Nat.testBit_two_pow] at hj
    rcases Bool.or_eq_true _ _ |>.mp hj with hj | hj
    · exact Nat.lt_succ_of_lt (h1 j hj)
    · have : i = j := of_decide_eq_true hj
      omega
  · rw [hbitseq, setSum_insert _ hnotmem, h2]
    omega
  · rw [hbitseq, setSum_insert _ hnotmem, h3]
    omega
  · rw [hbitseq, setSum_insert _ hnotmem, h4]
    omega
  · obtain ⟨f1, f2, f3, f4⟩ := h5
    rw [hbitseq]
    refine ⟨?_, ?_, ?_, ?_⟩
    · intro x hx
      rcases Finset.mem_insert.mp hx with rfl | hx
      · exact hi
      · exact f1 x hx
    · rw [setSum_insert _ hnotmem]
      omega
    · rw [setSum_insert _ hnotmem]
      omega
    · intro a ha b hb
      rcases Finset.mem_insert.mp ha with hai | ha2 <;>
        rcases Finset.mem_insert.mp hb with hbi | hb2
      · rw [hai, hbi]
        exact (cwf.2.2.2.1) i hi
      · rw [hai]
        have hbmask : mask.testBit b := (mem_bitsOf.mp hb2).2
        have hbn : b < c.n := (mem_bitsOf.mp hb2).1
        rw [cwf.2.2.2.2 i b hi hbn]
        exact hcompi b hbmask
      · rw [hbi]
        exact hcompi a (mem_bitsOf.mp ha2).2
      · exact f4 a ha2 b hb2
  · intro j
    rw [Nat.testBit_and, Bool.and_eq_true, h6 j]
    constructor
    · rintro ⟨⟨hjn, hall⟩, hcm⟩
      refine ⟨hjn, fun k hk => ?_⟩
      rw [Nat.testBit_or, Nat.one_shiftLeft, Nat.testBit_two_pow] at hk
      rcases Bool.or_eq_true _ _ |>.mp hk with hk | hk
      · exact hall k hk
      · have : i = k := of_decide_eq_true hk
        subst this
        exact hcm
    · rintro ⟨hjn, hall⟩
      refine ⟨⟨hjn, fun k hk => ?_⟩, ?_⟩
      · refine hall k ?_
        rw [Nat.testBit_or, hk, Bool.true_or]
      · refine hall i ?_
        rw [Nat.testBit_or, Nat.one_shiftLeft, Nat.testBit_two_pow]
        simp

theorem bestInv_update {c : BTCtx} {idx mask payout w v allowed : Nat}
    (hidx : idx ≤ c.n) (hSI : StateInv c idx mask payout w v allowed) :
    BestInv c ⟨payout, mask, w, v⟩ := by
  obtain ⟨h1, h2, h3, h4, h5, _⟩ := hSI
  exact ⟨fun j hj => Nat.lt_of_lt_of_le (h1 j hj) hidx, h2, h3, h4, h5⟩

theorem btLoop_sound {c : BTCtx} (cwf : CtxWF c) (fuel : Nat)
    (Hbt : ∀ idx mask payout w v allowed best,
      idx ≤ c.n → c.n + 1 ≤ fuel + idx →
      StateInv c idx mask payout w v allowed → BestInv c best →
      BestInv c (backtrack c fuel idx mask payout w v allowed best)) :
    ∀ k i mask payout w v allowed best,
      c.n ≤ fuel + i →
      StateInv c i mask payout w v allowed → BestInv c best →
      BestInv c (btLoop c (backtrack c fuel) k i mask payout w v allowed best) := by
  intro k
  induction k with
  | zero => intro i mask payout w v allowed best _ _ hB; exact hB
  | succ k ih =>
    intro i mask payout w v allowed best hfuel hSI hB
    simp only [btLoop]
    by_cases hi : i < c.n
    · rw [if_pos hi]
      refine ih (i + 1) mask payout w v allowed _ (by omega)
        (stateInv_weaken hSI) ?_
      by_cases ha : allowed.testBit i
      · rw [if_pos ha]
        by_cases hcap : (decide (w + c.weights.getD i 0 ≤ c.max_weight) &&
            decide (v + c.volumes.getD i 0 ≤ c.max_volume)) = true
        · rw [if_pos hcap]
          rcases Bool.and_eq_true _ _ |>.mp hcap with ⟨hw, hv⟩
          exact Hbt _ _ _ _ _ _ _ (by omega) (by omega)
            (stateInv_include cwf hi hSI ha (of_decide_eq_true hw)
              (of_decide_eq_true hv)) hB
        · rw [if_neg hcap]
          exact hB
      · rw [if_neg ha]
        exact hB
    · rw [if_neg hi]
      exact hB

theorem backtrack_sound {c : BTCtx} (cwf : CtxWF c) :
    ∀ fuel idx mask payout w v allowed best,
      idx ≤ c.n → c.n + 1 ≤ fuel + idx →
      StateInv c idx mask payout w v allowed → BestInv c best →
      BestInv c (backtrack c fuel idx mask payout w v allowed best) := by
  intro fuel
  induction fuel with
  | zero => intro idx mask payout w v allowed best _ _ _ hB; exact hB
  | succ fuel ih =>
    intro idx mask payout w v allowed best hidx hfuel hSI hB
    simp only [backtrack]
    have hB1 : BestInv c
        (if best.payout < payout then (⟨payout, mask, w, v⟩ : Best) else best) := by
      by_cases h : best.payout < payout
      · rw [if_pos h]
        exact bestInv_update hidx hSI
      · rw [if_neg h]
        exact hB
    by_cases hprune : payout + suffix_payout c.payouts idx ≤
        (if best.payout < payout then (⟨payout, mask, w, v⟩ : Best) else best).payout
    · rw [if_pos hprune]
      exact hB1
    · rw [if_neg hprune]
      exact btLoop_sound cwf fuel
        (fun idx m p w2 v2 a b h1 h2 h3 h4 => ih idx m p w2 v2 a b h1 h2 h3 h4)
        _ idx mask payout w v allowed _ (by omega) hSI hB1

/-! ### The backtracking search: optimality -/

theorem btLoop_opt {c : BTCtx} (cwf : CtxWF c) (fuel : Nat)
    (Hbt : ∀ idx mask payout w v allowed best,
      idx ≤ c.n → c.n + 1 ≤ fuel + idx →
      StateInv c idx mask payout w v allowed →
      ∀ T : Finset Nat, (∀ j ∈ T, idx ≤ j ∧ j < c.n) →
        Feasible c (bitsOf mask c.n ∪ T) →
        setSum c.payouts (bitsOf mask c.n ∪ T) ≤
          (backtrack c fuel idx mask payout w v allowed best).payout) :
    ∀ k i mask payout w v allowed best,
      c.n ≤ i + k → c.n ≤ fuel + i →
      StateInv c i mask payout w v allowed →
      payout ≤ best.payout →
      ∀ T : Finset Nat, (∀ j ∈ T, i ≤ j ∧ j < c.n) →
        Feasible c (bitsOf mask c.n ∪ T) →
        setSum c.payouts (bitsOf mask c.n ∪ T) ≤
          (btLoop c (backtrack c fuel) k i mask payout w v allowed best).payout := by
  intro k
  induction k with
  | zero =>
    intro i mask payout w v allowed best hik hfuel hSI hpb T hT hF
    have hT0 : T = ∅ := Finset.eq_empty_of_forall_not_mem fun j hj => by
      have := hT j hj; omega
    subst hT0
    simp only [btLoop]
    rw [Finset.union_empty, ← hSI.2.1]
    exact hpb
  | succ k ih =>
    intro i mask payout w v allowed best hik hfuel hSI hpb T hT hF
    simp only [btLoop]
    by_cases hi : i < c.n
    · rw [if_pos hi]
      by_cases hiT : i ∈ T
      · -- the include branch fires and covers the extension through i
        have hselffalse : mask.testBit i = false := mask_testBit_self_false hSI
        obtain ⟨g1, g2, g3, g4, g5, g6⟩ := hSI
        obtain ⟨f1, f2, f3, f4⟩ := hF
        have hmaskmem : ∀ x, mask.testBit x → x ∈ bitsOf mask c.n := fun x hx =>
          mem_bitsOf.mpr ⟨Nat.lt_trans (g1 x hx) hi, hx⟩
        have hallow : allowed.testBit i = true := by
          refine (g6 i).mpr ⟨hi, fun x hx => ?_⟩
          exact f4 x (Finset.mem_union_left _ (hmaskmem x hx)) i
            (Finset.mem_union_right _ hiT)
        have hnotmem : i ∉ bitsOf mask c.n :=
          not_mem_bitsOf_of_testBit hselffalse
        have hins_sub : insert i (bitsOf mask c.n) ⊆ bitsOf mask c.n ∪ T := by
          intro x hx
          rcases Finset.mem_insert.mp hx with hxi | hx2
          · rw [hxi]; exact Finset.mem_union_right _ hiT
          · exact Finset.mem_union_left _ hx2
        have hw' : w + c.weights.getD i 0 ≤ c.max_weight := by
          have hsub : setSum c.weights (insert i (bitsOf mask c.n)) ≤
              setSum c.weights (bitsOf mask c.n ∪ T) := setSum_mono _ hins_sub
          rw [setSum_insert _ hnotmem] at hsub
          rw [g3]
          omega
        have hv' : v + c.volumes.getD i 0 ≤ c.max_volume := by
          have hsub : setSum c.volumes (insert i (bitsOf mask c.n)) ≤
              setSum c.volumes (bitsOf mask c.n ∪ T) := setSum_mono _ hins_sub
          rw [setSum_insert _ hnotmem] at hsub
          rw [g4]
          omega
        have hcap : (decide (w + c.weights.getD i 0 ≤ c.max_weight) &&
            decide (v + c.volumes.getD i 0 ≤ c.max_volume)) = true := by
          rw [decide_eq_true hw', decide_eq_true hv']
          rfl
        rw [if_pos hallow, if_pos hcap]
        have hsetid : bitsOf (mask ||| 1 <<< i) c.n ∪ T.erase i =
            bitsOf mask c.n ∪ T := by
          rw [bitsOf_or_shiftLeft hi, Finset.insert_union,
            ← Finset.union_insert, Finset.insert_erase hiT]
        have hchild := Hbt (i + 1) (mask ||| 1 <<< i)
          (payout + c.payouts.getD i 0) (w + c.weights.getD i 0)
          (v + c.volumes.getD i 0) (allowed &&& c.cmask.getD i 0) best
          (by omega) (by omega)
          (stateInv_include cwf hi ⟨g1, g2, g3, g4, g5, g6⟩ hallow hw' hv')
          (T.erase i)
          (fun j hj => by
            have hj' := Finset.mem_erase.mp hj
            have := hT j hj'.2
            have := hj'.1
            omega)
          (by rw [hsetid]; exact ⟨f1, f2, f3, f4⟩)
        rw [hsetid] at hchild
        refine Nat.le_trans hchild ?_
        exact btLoop_mono
          (fun i2 m2 p2 w2 v2 a2 b2 => backtrack_mono fuel i2 m2 p2 w2 v2 a2 b2)
          _ _ _ _ _ _ _ _
      · -- the extension avoids i: step over the loop iteration
        have hmono : payout ≤
            (if allowed.testBit i = true then
              (if (decide (w + c.weights.getD i 0 ≤ c.max_weight) &&
                  decide (v + c.volumes.getD i 0 ≤ c.max_volume)) = true then
                backtrack c fuel (i + 1) (mask ||| 1 <<< i)
                  (payout + c.payouts.getD i 0) (w + c.weights.getD i 0)
                  (v + c.volumes.getD i 0) (allowed &&& c.cmask.getD i 0) best
              else best)
            else best).payout := by
          by_cases ha : allowed.testBit i = true
          · rw [if_pos ha]
            by_cases hcap : (decide (w + c.weights.getD i 0 ≤ c.max_weight) &&
                decide (v + c.volumes.getD i 0 ≤ c.max_volume)) = true
            · rw [if_pos hcap]
              exact Nat.le_trans hpb
                (backtrack_mono fuel _ _ _ _ _ _ best)
            · rw [if_neg hcap]
              exact hpb
          · rw [if_neg ha]
            exact hpb
        refine ih (i + 1) mask payout w v allowed _ (by omega) (by omega)
          (stateInv_weaken hSI) hmono T (fun j hj => ?_) hF
        have := hT j hj
        have hne : j ≠ i := fun hji => hiT (hji ▸ hj)
        omega
    · rw [if_neg hi]
      have hT0 : T = ∅ := Finset.eq_empty_of_forall_not_mem fun j hj => by
        have := hT j hj; omega
      subst hT0
      rw [Finset.union_empty, ← hSI.2.1]
      exact hpb

theorem backtrack_opt {c : BTCtx} (cwf : CtxWF c) :
    ∀ fuel idx mask payout w v allowed best,
      idx ≤ c.n → c.n + 1 ≤ fuel + idx →
      StateInv c idx mask payout w v allowed →
      ∀ T : Finset Nat, (∀ j ∈ T, idx ≤ j ∧ j < c.n) →
        Feasible c (bitsOf mask c.n ∪ T) →
        setSum c.payouts (bitsOf mask c.n ∪ T) ≤
          (backtrack c fuel idx mask payout w v allowed best).payout := by
  intro fuel
  induction fuel with
  | zero =>
    intro idx mask payout w v allowed best hidx hfuel
    omega
  | succ fuel ih =>
    intro idx mask payout w v allowed best hidx hfuel hSI T hT hF
    simp only [backtrack]
    set best1 :=
      if best.payout < payout then (⟨payout, mask, w, v⟩ : Best) else best
      with hbest1
    have hpb1 : payout ≤ best1.payout := by
      rw [hbest1]
      by_cases h : best.payout < payout
      · rw [if_pos h]
      · rw [if_neg h]
        omega
    have hdisj : Disjoint (bitsOf mask c.n) T := by
      rw [Finset.disjoint_left]
      intro x hx hxT
      have h1 := (mem_bitsOf.mp hx).2
      have h2 := hSI.1 x h1
      have h3 := hT x hxT
      omega
    have hsplit : setSum c.payouts (bitsOf mask c.n ∪ T) =
        payout + setSum c.payouts T := by
      rw [setSum_union _ hdisj, ← hSI.2.1]
    by_cases hprune : payout + suffix_payout c.payouts idx ≤ best1.payout
    · rw [if_pos hprune]
      have hTle : setSum c.payouts T ≤ suffix_payout c.payouts idx := by
        refine setSum_le_suffix _ fun j hj => ?_
        have := hT j hj
        rw [cwf.1]
        omega
      omega
    · rw [if_neg hprune]
      exact btLoop_opt cwf fuel ih
        (c.n - idx) idx mask payout w v allowed best1 (by omega) (by omega)
        hSI hpb1 T hT hF

/-! ### The backtracking search: zero-payout positions are never recorded -/

theorem suffix_zero_of_sorted {c : BTCtx} (hlen : c.payouts.length = c.n)
    (hsort : SortedDesc c) {i : Nat} (hi : i < c.n)
    (hz : c.payouts.getD i 0 = 0) :
    suffix_payout c.payouts (i + 1) = 0 := by
  unfold suffix_payout
  refine List.sum_eq_zero fun x hx => ?_
  obtain ⟨j, hj, hxj⟩ := List.mem_iff_getElem.mp hx
  have hjlen : i + 1 + j < c.payouts.length := by
    have := List.length_drop (i + 1) c.payouts
    omega
  have hgd : c.payouts.getD (i + 1 + j) 0 = x := by
    rw [getD_eq_get 0 hjlen, ← hxj, List.getElem_drop]
  have hle := hsort i (i + 1 + j) (by omega) (by omega)
  omega

theorem btLoop_clean {c : BTCtx} (hlen : c.payouts.length = c.n)
    (hsort : SortedDesc c) (fuel : Nat)
    (Hbt : ∀ idx mask payout w v allowed best,
      (CleanMask c mask ∨
        payout + suffix_payout c.payouts idx ≤ (best : Best).payout) →
      CleanMask c best.mask →
      CleanMask c (backtrack c fuel idx mask payout w v allowed best).mask) :
    ∀ k i mask payout w v allowed best,
      CleanMask c mask → payout ≤ best.payout → CleanMask c best.mask →
      CleanMask c
        (btLoop c (backtrack c fuel) k i mask payout w v allowed best).mask := by
  intro k
  induction k with
  | zero => intro i mask payout w v allowed best _ _ hB; exact hB
  | succ k ih =>
    intro i mask payout w v allowed best hM hpb hB
    simp only [btLoop]
    by_cases hi : i < c.n
    · rw [if_pos hi]
      by_cases ha : allowed.testBit i = true
      · rw [if_pos ha]
        by_cases hcap : (decide (w + c.weights.getD i 0 ≤ c.max_weight) &&
            decide (v + c.volumes.getD i 0 ≤ c.max_volume)) = true
        · rw [if_pos hcap]
          by_cases hz : c.payouts.getD i 0 = 0
          · refine ih (i + 1) mask payout w v allowed _ hM ?_ ?_
            · exact Nat.le_trans hpb (backtrack_mono fuel _ _ _ _ _ _ best)
            · refine Hbt _ _ _ _ _ _ _ (Or.inr ?_) hB
              rw [hz, suffix_zero_of_sorted hlen hsort hi hz]
              omega
          · refine ih (i + 1) mask payout w v allowed _ hM ?_ ?_
            · exact Nat.le_trans hpb (backtrack_mono fuel _ _ _ _ _ _ best)
            · refine Hbt _ _ _ _ _ _ _ (Or.inl ?_) hB
              intro j hj
              rw [Nat.testBit_or, Nat.one_shiftLeft, Nat.testBit_two_pow] at hj
              rcases Bool.or_eq_true _ _ |>.mp hj with hj | hj
              · exact hM j hj
              · have hij : i = j := of_decide_eq_true hj
                rw [← hij]
                exact hz
        · rw [if_neg hcap]
          exact ih (i + 1) mask payout w v allowed best hM hpb hB
      · rw [if_neg ha]
        exact ih (i + 1) mask payout w v allowed best hM hpb hB
    · rw [if_neg hi]
      exact hB

theorem backtrack_clean {c : BTCtx} (hlen : c.payouts.length = c.n)
    (hsort : SortedDesc c) :
    ∀ fuel idx mask payout w v allowed best,
      (CleanMask c mask ∨
        payout + suffix_payout c.payouts idx ≤ best.payout) →
      CleanMask c best.mask →
      CleanMask c (backtrack c fuel idx mask payout w v allowed best).mask := by
  intro fuel
  induction fuel with
  | zero => intro idx mask payout w v allowed best _ hB; exact hB
  | succ fuel ih =>
    intro idx mask payout w v allowed best hdisj hB
    simp only [backtrack]
    rcases hdisj with hM | hple
    · set best1 :=
        if best.payout < payout then (⟨payout, mask, w, v⟩ : Best) else best
        with hbest1
      have hB1 : CleanMask c best1.mask := by
        rw [hbest1]
        by_cases h : best.payout < payout
        · rw [if_pos h]; exact hM
        · rw [if_neg h]; exact hB
      have hpb1 : payout ≤ best1.payout := by
        rw [hbest1]
        by_cases h : best.payout < payout
        · rw [if_pos h]
        · rw [if_neg h]; omega
      by_cases hprune : payout + suffix_payout c.payouts idx ≤ best1.payout
      · rw [if_pos hprune]
        exact hB1
      · rw [if_neg hprune]
        exact btLoop_clean hlen hsort fuel ih _ idx mask payout w v allowed
          best1 hM hpb1 hB1
    · have hupd : ¬best.payout < payout := by
        have := Nat.zero_le (suffix_payout c.payouts idx)
        omega
      rw [if_neg hupd, if_pos hple]
      exact hB

/-! ### Top-level facts about the backtracking search entry point -/

theorem stateInv_init (c : BTCtx) : StateInv c 0 0 0 0 0 ((1 <<< c.n) - 1) := by
  refine ⟨?_, ?_, ?_, ?_, ?_, ?_⟩
  · intro j hj
    rw [Nat.zero_testBit] at hj
    exact absurd hj (by simp)
  · rw [bitsOf_zero, setSum_empty]
  · rw [bitsOf_zero, setSum_empty]
  · rw [bitsOf_zero, setSum_empty]
  · rw [bitsOf_zero]
    refine ⟨fun i hi => absurd hi (Finset.not_mem_empty i), ?_, ?_,
      fun i hi => absurd hi (Finset.not_mem_empty i)⟩
    · rw [setSum_empty]; exact Nat.zero_le _
    · rw [setSum_empty]; exact Nat.zero_le _
  · intro j
    rw [Nat.one_shiftLeft, Nat.testBit_two_pow_sub_one]
    constructor
    · intro h
      refine ⟨of_decide_eq_true h, fun k hk => ?_⟩
      rw [Nat.zero_testBit] at hk
      exact absurd hk (by simp)
    · rintro ⟨h, _⟩
      exact decide_eq_true h

theorem bestInv_init (c : BTCtx) : BestInv c ⟨0, 0, 0, 0⟩ := by
  refine ⟨?_, ?_, ?_, ?_, ?_⟩
  · intro j hj
    rw [Nat.zero_testBit] at hj
    exact absurd hj (by simp)
  · rw [bitsOf_zero, setSum_empty]
  · rw [bitsOf_zero, setSum_empty]
  · rw [bitsOf_zero, setSum_empty]
  · rw [bitsOf_zero]
    refine ⟨fun i hi => absurd hi (Finset.not_mem_empty i), ?_, ?_,
      fun i hi => absurd hi (Finset.not_mem_empty i)⟩
    · rw [setSum_empty]; exact Nat.zero_le _
    · rw [setSum_empty]; exact Nat.zero_le _

theorem btBest_bestInv (truck : Truck) (orders : List Order) :
    BestInv (btCtx truck orders) (btBest truck orders) := by
  unfold btBest
  exact backtrack_sound (btCtx_wf truck orders) (orders.length + 1) 0 0 0 0 0
    _ _ (Nat.zero_le _) (by rw [btCtx_n]) (stateInv_init _)
    (bestInv_init _)

theorem btBest_opt (truck : Truck) (orders : List Order) :
    ∀ T : Finset Nat, (∀ j ∈ T, j < orders.length) →
      Feasible (btCtx truck orders) T →
      setSum (btCtx truck orders).payouts T ≤ (btBest truck orders).payout := by
  intro T hT hF
  have h := backtrack_opt (btCtx_wf truck orders) (orders.length + 1) 0 0 0 0 0
    ((1 <<< orders.length) - 1) ⟨0, 0, 0, 0⟩ (Nat.zero_le _)
    (by rw [btCtx_n]) (stateInv_init _) T
    (fun j hj => ⟨Nat.zero_le _, by rw [btCtx_n]; exact hT j hj⟩)
    (by rw [bitsOf_zero, Finset.empty_union]; exact hF)
  rw [bitsOf_zero, Finset.empty_union] at h
  exact h

theorem btBest_clean (truck : Truck) (orders : List Order) :
    CleanMask (btCtx truck orders) (btBest truck orders).mask := by
  unfold btBest
  refine backtrack_clean (btCtx_wf truck orders).1
    (btCtx_sortedDesc truck orders) _ 0 0 0 0 0 _ _ (Or.inl ?_) ?_
  · intro j hj
    rw [Nat.zero_testBit] at hj
    exact absurd hj (by simp)
  · intro j hj
    rw [Nat.zero_testBit] at hj
    exact absurd hj (by simp)

/-! ### Converting the winning bit-set to the returned index list -/

theorem list_sum_filter_eq_setSum (f : Nat → Nat) (mask : Nat) :
    ∀ n, (((List.range n).filter (fun i => mask.testBit i)).map f).sum =
      ∑ i ∈ bitsOf mask n, f i := by
  intro n
  induction n with
  | zero => simp [bitsOf]
  | succ n ih =>
    rw [List.range_succ, List.filter_append, List.map_append, List.sum_append]
    by_cases h : mask.testBit n
    · have hfilter : List.filter (fun i => mask.testBit i) [n] = [n] := by
        simp [h]
      have hbits : bitsOf mask (n + 1) = insert n (bitsOf mask n) := by
        ext j
        simp only [mem_bitsOf, Finset.mem_insert]
        constructor
        · rintro ⟨hj, hb⟩
          by_cases hjn : j = n
          · exact Or.inl hjn
          · exact Or.inr ⟨by omega, hb⟩
        · rintro (rfl | ⟨hj, hb⟩)
          · exact ⟨by omega, h⟩
          · exact ⟨by omega, hb⟩
      have hnmem : n ∉ bitsOf mask n := by
        simp [mem_bitsOf]
      rw [hfilter, hbits, Finset.sum_insert hnmem, ih, List.map_cons,
        List.map_nil, List.sum_cons, List.sum_nil]
      omega
    · have hfilter : List.filter (fun i => mask.testBit i) [n] = [] := by
        simp [h]
      have hbits : bitsOf mask (n + 1) = bitsOf mask n := by
        ext j
        simp only [mem_bitsOf]
        constructor
        · rintro ⟨hj, hb⟩
          refine ⟨?_, hb⟩
          by_cases hjn : j = n
          · rw [hjn] at hb
            rw [hb] at h
            exact absurd rfl h
          · omega
        · rintro ⟨hj, hb⟩
          exact ⟨by omega, hb⟩
      rw [hfilter, hbits, ih, List.map_nil, List.sum_nil]
      omega

theorem sum_toSorted {orders : List Order} {S : Finset Nat}
    (hS : ∀ p ∈ S, p < orders.length) (g : Nat → Nat) :
    ∑ i ∈ (Finset.range orders.length).filter
        (fun i => (sortedIndices orders).getD i 0 ∈ S),
      g ((sortedIndices orders).getD i 0) = ∑ p ∈ S, g p := by
  refine Finset.sum_nbij (fun i => (sortedIndices orders).getD i 0) ?_ ?_ ?_ ?_
  · intro a ha
    exact (Finset.mem_filter.mp ha).2
  · intro a ha b hb hab
    have ha' := Finset.mem_range.mp (Finset.mem_filter.mp ha).1
    have hb' := Finset.mem_range.mp (Finset.mem_filter.mp hb).1
    exact sortedIndices_inj ha' hb' hab
  · intro p hp
    obtain ⟨i, hin, hieq⟩ := sortedIndices_surj (hS p hp)
    refine ⟨i, ?_, hieq⟩
    refine Finset.mem_coe.mpr (Finset.mem_filter.mpr ⟨Finset.mem_range.mpr hin, ?_⟩)
    rw [hieq]
    exact hp
  · intro a ha
    rfl

/-! ### Transfer between input positions and sorted positions -/

theorem setSum_btCtx_toSorted {orders : List Order} {S : Finset Nat}
    (hS : ∀ p ∈ S, p < orders.length) (xs : List Nat) (g : Order → Nat)
    (hxs : ∀ i, i < orders.length →
      xs.getD i 0 =
        g (orders.getD ((sortedIndices orders).getD i 0) default)) :
    setSum xs ((Finset.range orders.length).filter
      (fun i => (sortedIndices orders).getD i 0 ∈ S)) =
      ∑ p ∈ S, g (orders.getD p default) := by
  unfold setSum
  rw [Finset.sum_congr rfl
    (fun i hi => hxs i (Finset.mem_range.mp (Finset.mem_filter.mp hi).1))]
  exact sum_toSorted hS fun p => g (orders.getD p default)

theorem feasible_toSorted {truck : Truck} {orders : List Order}
    {S : Finset Nat} (hS : subsetFeasible truck orders S) :
    Feasible (btCtx truck orders)
      ((Finset.range orders.length).filter
        (fun i => (sortedIndices orders).getD i 0 ∈ S)) := by
  obtain ⟨hvalid, hw, hv, hcomp⟩ := hS
  refine ⟨?_, ?_, ?_, ?_⟩
  · intro i hi
    rw [btCtx_n]
    exact Finset.mem_range.mp (Finset.mem_filter.mp hi).1
  · rw [setSum_btCtx_toSorted hvalid _ Order.weight_lbs
      (fun i hi => btCtx_weights_getD hi)]
    exact hw
  · rw [setSum_btCtx_toSorted hvalid _ Order.volume_cuft
      (fun i hi => btCtx_volumes_getD hi)]
    exact hv
  · intro i hi j hj
    have hi' := Finset.mem_filter.mp hi
    have hin := Finset.mem_range.mp hi'.1
    have hj' := Finset.mem_filter.mp hj
    have hjn := Finset.mem_range.mp hj'.1
    rw [btCtx_cmask_testBit hin]
    by_cases hij : i = j
    · simp [hij, hjn]
    · have hne : (sortedIndices orders).getD i 0 ≠
          (sortedIndices orders).getD j 0 :=
        fun he => hij (sortedIndices_inj hin hjn he)
      have hcompat := hcomp _ hi'.2 _ hj'.2 hne
      rw [sortedOrders_getD hin, sortedOrders_getD hjn,
        decide_eq_true hjn, Bool.true_and, hcompat, Bool.or_true]

theorem subsetFeasible_image {truck : Truck} {orders : List Order}
    {T : Finset Nat} (hF : Feasible (btCtx truck orders) T) :
    subsetFeasible truck orders
      (T.image (fun i => (sortedIndices orders).getD i 0)) := by
  obtain ⟨hvalid, hw, hv, hcomp⟩ := hF
  have hvalid' : ∀ i ∈ T, i < orders.length := fun i hi => by
    have := hvalid i hi
    rwa [btCtx_n] at this
  have hinj : ∀ x ∈ T, ∀ y ∈ T,
      (sortedIndices orders).getD x 0 = (sortedIndices orders).getD y 0 →
        x = y :=
    fun x hx y hy he => sortedIndices_inj (hvalid' x hx) (hvalid' y hy) he
  refine ⟨?_, ?_, ?_, ?_⟩
  · intro p hp
    obtain ⟨i, hi, rfl⟩ := Finset.mem_image.mp hp
    exact sortedIndices_getD_lt (hvalid' i hi)
  · unfold subsetWeight
    rw [Finset.sum_image hinj,
      Finset.sum_congr rfl
        (fun i hi => (@btCtx_weights_getD truck orders i
          (hvalid' i hi)).symm)]
    exact hw
  · unfold subsetVolume
    rw [Finset.sum_image hinj,
      Finset.sum_congr rfl
        (fun i hi => (@btCtx_volumes_getD truck orders i
          (hvalid' i hi)).symm)]
    exact hv
  · intro p hp q hq hpq
    obtain ⟨i, hi, rfl⟩ := Finset.mem_image.mp hp
    obtain ⟨j, hj, rfl⟩ := Finset.mem_image.mp hq
    have hij : i ≠ j := fun he => hpq (by rw [he])
    have hbit := hcomp i hi j hj
    rw [btCtx_cmask_testBit (hvalid' i hi)] at hbit
    have hor := (Bool.and_eq_true _ _ |>.mp hbit).2
    rcases Bool.or_eq_true _ _ |>.mp hor with h | h
    · exact absurd (beq_iff_eq.mp h) hij
    · rw [sortedOrders_getD (hvalid' i hi),
        sortedOrders_getD (hvalid' j hj)] at h
      exact h

theorem subsetPayout_image {orders : List Order} {T : Finset Nat}
    (hT : ∀ i ∈ T, i < orders.length) :
    subsetPayout orders
        (T.image (fun i => (sortedIndices orders).getD i 0)) =
      ∑ i ∈ T,
        (orders.getD ((sortedIndices orders).getD i 0) default).payout_cents := by
  unfold subsetPayout
  exact Finset.sum_image
    (fun x hx y hy he => sortedIndices_inj (hT x hx) (hT y hy) he)

/-! ### The assembled result of the backtracking optimizer -/

theorem olb_eq_empty {truck : Truck} {orders : List Order}
    (h : orders.length = 0) :
    optimize_load_backtracking truck orders = ⟨[], 0, 0, 0⟩ := by
  simp only [optimize_load_backtracking]
  rw [if_pos h]

theorem olb_payout {truck : Truck} {orders : List Order}
    (h : ¬orders.length = 0) :
    (optimize_load_backtracking truck orders).total_payout_cents =
      (btBest truck orders).payout := by
  simp only [optimize_load_backtracking]
  rw [if_neg h]

theorem olb_weight {truck : Truck} {orders : List Order}
    (h : ¬orders.length = 0) :
    (optimize_load_backtracking truck orders).total_weight_lbs =
      (btBest truck orders).weight := by
  simp only [optimize_load_backtracking]
  rw [if_neg h]

theorem olb_volume {truck : Truck} {orders : List Order}
    (h : ¬orders.length = 0) :
    (optimize_load_backtracking truck orders).total_volume_cuft =
      (btBest truck orders).volume := by
  simp only [optimize_load_backtracking]
  rw [if_neg h]

theorem olb_selected {truck : Truck} {orders : List Order}
    (h : ¬orders.length = 0) :
    (optimize_load_backtracking truck orders).selected_indices =
      ((List.range orders.length).filter
          (fun i => (btBest truck orders).mask.testBit i)).map
        (fun i => (sortedIndices orders).getD i 0) := by
  simp only [optimize_load_backtracking]
  rw [if_neg h]

theorem olb_selected_mem {truck : Truck} {orders : List Order}
    (h : ¬orders.length = 0) {p : Nat}
    (hp : p ∈ (optimize_load_backtracking truck orders).selected_indices) :
    ∃ i, i < orders.length ∧ (btBest truck orders).mask.testBit i = true ∧
      p = (sortedIndices orders).getD i 0 := by
  rw [olb_selected h] at hp
  obtain ⟨i, hi, rfl⟩ := List.mem_map.mp hp
  have hi' := List.mem_filter.mp hi
  exact ⟨i, List.mem_range.mp hi'.1, hi'.2, rfl⟩

theorem olb_selected_sum {truck : Truck} {orders : List Order}
    (h : ¬orders.length = 0) (g : Order → Nat) :
    ((optimize_load_backtracking truck orders).selected_indices.map
        (fun p => g (orders.getD p default))).sum =
      ∑ i ∈ bitsOf (btBest truck orders).mask orders.length,
        g (orders.getD ((sortedIndices orders).getD i 0) default) := by
  rw [olb_selected h, List.map_map, list_sum_filter_eq_setSum]
  exact Finset.sum_congr rfl fun i _ => rfl

theorem ol_eq (truck : Truck) (orders : List Order) :
    optimize_load truck orders = optimize_load_backtracking truck orders := rfl

theorem btBest_payout_sum (truck : Truck) (orders : List Order) :
    (btBest truck orders).payout =
      ∑ i ∈ bitsOf (btBest truck orders).mask orders.length,
        (orders.getD ((sortedIndices orders).getD i 0) default).payout_cents := by
  have hB := btBest_bestInv truck orders
  rw [hB.2.1, btCtx_n]
  unfold setSum
  exact Finset.sum_congr rfl fun i hi => btCtx_payouts_getD (mem_bitsOf.mp hi).1

theorem btBest_weight_sum (truck : Truck) (orders : List Order) :
    (btBest truck orders).weight =
      ∑ i ∈ bitsOf (btBest truck orders).mask orders.length,
        (orders.getD ((sortedIndices orders).getD i 0) default).weight_lbs := by
  have hB := btBest_bestInv truck orders
  rw [hB.2.2.1, btCtx_n]
  unfold setSum
  exact Finset.sum_congr rfl fun i hi => btCtx_weights_getD (mem_bitsOf.mp hi).1

theorem btBest_volume_sum (truck : Truck) (orders : List Order) :
    (btBest truck orders).volume =
      ∑ i ∈ bitsOf (btBest truck orders).mask orders.length,
        (orders.getD ((sortedIndices orders).getD i 0) default).volume_cuft := by
  have hB := btBest_bestInv truck orders
  rw [hB.2.2.2.1, btCtx_n]
  unfold setSum
  exact Finset.sum_congr rfl fun i hi => btCtx_volumes_getD (mem_bitsOf.mp hi).1

/-! ### Claim theorems for the backtracking optimizer -/

/-- C1: Optimality — for every truck with positive weight and volume
capacities and every list of at most 25 candidate orders, no subset of the
input orders that satisfies both capacity limits and full pairwise
compatibility has strictly greater total payout than the
`total_payout_cents` of the result returned by `optimize_load`. -/
theorem optimize_load_optimal (truck : Truck) (orders : List Order)
    (hW : 0 < truck.max_weight_lbs) (hV : 0 < truck.max_volume_cuft)
    (hn : orders.length ≤ 25) (S : Finset Nat)
    (hS : subsetFeasible truck orders S) :
    subsetPayout orders S ≤ (optimize_load truck orders).total_payout_cents := by
  by_cases h : orders.length = 0
  · have hS0 : S = ∅ := Finset.eq_empty_of_forall_not_mem fun p hp => by
      have := hS.1 p hp
      omega
    rw [hS0]
    unfold subsetPayout
    rw [Finset.sum_empty]
    exact Nat.zero_le _
  · rw [ol_eq, olb_payout h]
    have hT := feasible_toSorted hS
    have hopt := btBest_opt truck orders _
      (fun j hj => Finset.mem_range.mp (Finset.mem_filter.mp hj).1) hT
    rw [setSum_btCtx_toSorted hS.1 _ Order.payout_cents
      (fun i hi => btCtx_payouts_getD hi)] at hopt
    exact hopt

/-- C2: Capacity invariant — for every truck and every list of candidate
orders, the result returned by `optimize_load` satisfies
`total_weight_lbs ≤ truck.max_weight_lbs` and
`total_volume_cuft ≤ truck.max_volume_cuft`. -/
theorem optimize_load_capacity (truck : Truck) (orders : List Order) :
    (optimize_load truck orders).total_weight_lbs ≤ truck.max_weight_lbs ∧
    (optimize_load truck orders).total_volume_cuft ≤ truck.max_volume_cuft := by
  by_cases h : orders.length = 0
  · rw [ol_eq, olb_eq_empty h]
    exact ⟨Nat.zero_le _, Nat.zero_le _⟩
  · have hB := btBest_bestInv truck orders
    constructor
    · rw [ol_eq, olb_weight h, hB.2.2.1]
      exact hB.2.2.2.2.2.1
    · rw [ol_eq, olb_volume h, hB.2.2.2.1]
      exact hB.2.2.2.2.2.2.1

/-- C3: Compatibility invariant — every pair of distinct positions in the
`selected_indices` of the result returned by `optimize_load` carries
orders satisfying the pairwise predicate `are_orders_compatible`. -/
theorem optimize_load_compatible (truck : Truck) (orders : List Order)
    (p q : Nat)
    (hp : p ∈ (optimize_load truck orders).selected_indices)
    (hq : q ∈ (optimize_load truck orders).selected_indices)
    (hpq : p ≠ q) :
    are_orders_compatible (orders.getD p default) (orders.getD q default) =
      true := by
  by_cases h : orders.length = 0
  · rw [ol_eq, olb_eq_empty h] at hp
    exact absurd hp (List.not_mem_nil p)
  · rw [ol_eq] at hp hq
    obtain ⟨i, hin, hib, rfl⟩ := olb_selected_mem h hp
    obtain ⟨j, hjn, hjb, rfl⟩ := olb_selected_mem h hq
    have hij : i ≠ j := fun he => hpq (by rw [he])
    have hB := btBest_bestInv truck orders
    have hiS : i ∈ bitsOf (btBest truck orders).mask (btCtx truck orders).n :=
      mem_bitsOf.mpr ⟨by rw [btCtx_n]; exact hin, hib⟩
    have hjS : j ∈ bitsOf (btBest truck orders).mask (btCtx truck orders).n :=
      mem_bitsOf.mpr ⟨by rw [btCtx_n]; exact hjn, hjb⟩
    have hcomp := hB.2.2.2.2.2.2.2 i hiS j hjS
    rw [btCtx_cmask_testBit hin] at hcomp
    have hor := (Bool.and_eq_true _ _ |>.mp hcomp).2
    rcases Bool.or_eq_true _ _ |>.mp hor with heq | hcompat
    · exact absurd (beq_iff_eq.mp heq) hij
    · rw [sortedOrders_getD hin, sortedOrders_getD hjn] at hcompat
      exact hcompat

/-- C6: Aggregate consistency — the `selected_indices` returned by
`optimize_load` are distinct valid positions into the input list, and the
reported `total_payout_cents`, `total_weight_lbs` and `total_volume_cuft`
equal the sums of `payout_cents`, `weight_lbs` and `volume_cuft` over the
orders at exactly those positions. -/
theorem optimize_load_aggregates (truck : Truck) (orders : List Order) :
    (optimize_load truck orders).selected_indices.Nodup ∧
    (∀ p ∈ (optimize_load truck orders).selected_indices,
      p < orders.length) ∧
    (optimize_load truck orders).total_payout_cents =
      ((optimize_load truck orders).selected_indices.map
        (fun p => (orders.getD p default).payout_cents)).sum ∧
    (optimize_load truck orders).total_weight_lbs =
      ((optimize_load truck orders).selected_indices.map
        (fun p => (orders.getD p default).weight_lbs)).sum ∧
    (optimize_load truck orders).total_volume_cuft =
      ((optimize_load truck orders).selected_indices.map
        (fun p => (orders.getD p default).volume_cuft)).sum := by
  by_cases h : orders.length = 0
  · rw [ol_eq, olb_eq_empty h]
    refine ⟨List.nodup_nil, ?_, rfl, rfl, rfl⟩
    intro p hp
    exact absurd hp (List.not_mem_nil p)
  · refine ⟨?_, ?_, ?_, ?_, ?_⟩
    · rw [ol_eq, olb_selected h]
      refine List.Nodup.map_on ?_ (List.Nodup.filter _ (List.nodup_range _))
      intro x hx y hy he
      exact sortedIndices_inj
        (List.mem_range.mp (List.mem_filter.mp hx).1)
        (List.mem_range.mp (List.mem_filter.mp hy).1) he
    · intro p hp
      rw [ol_eq] at hp
      obtain ⟨i, hin, _, rfl⟩ := olb_selected_mem h hp
      exact sortedIndices_getD_lt hin
    · have hs := @olb_selected_sum truck orders h Order.payout_cents
      rw [ol_eq, hs, olb_payout h, btBest_payout_sum]
    · have hs := @olb_selected_sum truck orders h Order.weight_lbs
      rw [ol_eq, hs, olb_weight h, btBest_weight_sum]
    · have hs := @olb_selected_sum truck orders h Order.volume_cuft
      rw [ol_eq, hs, olb_volume h, btBest_volume_sum]

/-- C8 (counterexample): on two compatible orders given in payout-ascending
input order, `optimize_load` returns `selected_indices = [1, 0]`, which is
not in ascending input-array order — refuting the claim that the returned
positions always appear ordered as in the caller's input array. -/
theorem optimize_load_selected_not_ascending :
    (optimize_load exTruck exOrders).selected_indices = [1, 0] ∧
    ¬List.Pairwise (fun p q => p < q)
      (optimize_load exTruck exOrders).selected_indices := by
  constructor
  · decide
  · decide

/-- C8 (amended): the `selected_indices` returned by `optimize_load` are
the original input-array positions of the chosen orders (the payout
descending sort is undone in the values), but the list is ordered by the
internal payout-descending traversal — payouts are non-increasing along
`selected_indices` — not necessarily in ascending input-array order. -/
theorem optimize_load_selected_payout_desc (truck : Truck)
    (orders : List Order) :
    List.Pairwise
      (fun p q => (orders.getD q default).payout_cents ≤
        (orders.getD p default).payout_cents)
      (optimize_load truck orders).selected_indices := by
  by_cases h : orders.length = 0
  · rw [ol_eq, olb_eq_empty h]
    exact List.Pairwise.nil
  · rw [ol_eq, olb_selected h, List.pairwise_map]
    refine List.Pairwise.imp_of_mem ?_
      (List.Pairwise.filter _ (List.pairwise_lt_range orders.length))
    intro a b ha hb hab
    exact sortedIndices_desc hab
      (List.mem_range.mp (List.mem_filter.mp hb).1)

/-- C10: zero-payout orders are never selected — no position in the
`selected_indices` returned by `optimize_load` carries an order with
`payout_cents = 0`; in particular, when every order has payout 0 the
result is the empty solution even if non-empty feasible subsets exist. -/
theorem optimize_load_no_zero_payout (truck : Truck) (orders : List Order) :
    (∀ p ∈ (optimize_load truck orders).selected_indices,
      (orders.getD p default).payout_cents ≠ 0) ∧
    ((∀ o ∈ orders, o.payout_cents = 0) →
      optimize_load truck orders = ⟨[], 0, 0, 0⟩) := by
  constructor
  · intro p hp
    by_cases h : orders.length = 0
    · rw [ol_eq, olb_eq_empty h] at hp
      exact absurd hp (List.not_mem_nil p)
    · rw [ol_eq] at hp
      obtain ⟨i, hin, hib, rfl⟩ := olb_selected_mem h hp
      have hclean := btBest_clean truck orders i hib
      rw [btCtx_payouts_getD hin] at hclean
      exact hclean
  · intro hall
    by_cases h : orders.length = 0
    · rw [ol_eq, olb_eq_empty h]
    · have hB := btBest_bestInv truck orders
      have hmask : (btBest truck orders).mask = 0 := by
        refine Nat.eq_of_testBit_eq fun j => ?_
        rw [Nat.zero_testBit]
        by_contra hne
        have hbt : (btBest truck orders).mask.testBit j = true := by
          revert hne
          cases (btBest truck orders).mask.testBit j <;> simp
        have hjn : j < orders.length := by
          have := hB.1 j hbt
          rwa [btCtx_n] at this
        have hclean := btBest_clean truck orders j hbt
        rw [btCtx_payouts_getD hjn] at hclean
        refine hclean (hall _ ?_)
        have hσ := sortedIndices_getD_lt hjn
        rw [getD_eq_get default hσ]
        exact List.getElem_mem hσ
      rw [ol_eq]
      simp only [optimize_load_backtracking]
      rw [if_neg h]
      simp only [OptimizationResult.mk.injEq]
      refine ⟨?_, ?_, ?_, ?_⟩
      · rw [hmask]
        have hfil :
            (List.range orders.length).filter (fun i => Nat.testBit 0 i) = [] := by
          rw [List.filter_eq_nil_iff]
          intro a _
          rw [Nat.zero_testBit]
          simp
        rw [hfil, List.map_nil]
      · rw [hB.2.1, hmask, bitsOf_zero, setSum_empty]
      · rw [hB.2.2.1, hmask, bitsOf_zero, setSum_empty]
      · rw [hB.2.2.2.1, hmask, bitsOf_zero, setSum_empty]

/-! ### Claims about the compatibility predicate and relation -/

/-- C4: for every two orders, `are_orders_compatible` returns true if and
only if all three sub-checks pass: the trimmed case-folded origin strings
are equal and likewise the destinations, the latest pickup is no later
than the earliest delivery, and the hazmat flags are equal. -/
theorem are_orders_compatible_iff (o1 o2 : Order) :
    are_orders_compatible o1 o2 = true ↔
      (pyLower (pyStrip o1.origin) = pyLower (pyStrip o2.origin) ∧
       pyLower (pyStrip o1.destination) = pyLower (pyStrip o2.destination) ∧
       max o1.pickup_date o2.pickup_date ≤
         min o1.delivery_date o2.delivery_date ∧
       o1.is_hazmat = o2.is_hazmat) := by
  unfold are_orders_compatible check_route_compatibility
    check_time_compatibility check_hazmat_compatibility normalize_location
  simp [Bool.and_eq_true, beq_iff_eq, and_assoc]

/-- C7: the compatibility relation the core builds is reflexive and
symmetric — `are_orders_compatible` is symmetric, the self-bit of every
`compatible_mask` row is set, and bit `j` of row `i` equals bit `i` of
row `j`. -/
theorem compatibility_reflexive_symmetric :
    (∀ a b : Order, are_orders_compatible a b = are_orders_compatible b a) ∧
    (∀ (orders : List Order) (i : Nat), i < orders.length →
      ((compatible_mask orders).getD i 0).testBit i = true) ∧
    (∀ (orders : List Order) (i j : Nat), i < orders.length →
      j < orders.length →
      ((compatible_mask orders).getD i 0).testBit j =
        ((compatible_mask orders).getD j 0).testBit i) := by
  refine ⟨are_orders_compatible_symm, ?_, ?_⟩
  · intro orders i hi
    rw [compatible_mask_testBit hi]
    simp [hi]
  · intro orders i j hi hj
    rw [compatible_mask_testBit hi, compatible_mask_testBit hj,
      decide_eq_true hj, decide_eq_true hi, Bool.true_and, Bool.true_and,
      beq_symm i j, are_orders_compatible_symm]

theorem olb_empty_of_mask_zero {truck : Truck} {orders : List Order}
    (h : ¬orders.length = 0) (hmask : (btBest truck orders).mask = 0) :
    optimize_load_backtracking truck orders = ⟨[], 0, 0, 0⟩ := by
  have hB := btBest_bestInv truck orders
  simp only [optimize_load_backtracking]
  rw [if_neg h]
  simp only [OptimizationResult.mk.injEq]
  refine ⟨?_, ?_, ?_, ?_⟩
  · rw [hmask]
    have hfil :
        (List.range orders.length).filter (fun i => Nat.testBit 0 i) = [] := by
      rw [List.filter_eq_nil_iff]
      intro a _
      rw [Nat.zero_testBit]
      simp
    rw [hfil, List.map_nil]
  · rw [hB.2.1, hmask, bitsOf_zero, setSum_empty]
  · rw [hB.2.2.1, hmask, bitsOf_zero, setSum_empty]
  · rw [hB.2.2.2.1, hmask, bitsOf_zero, setSum_empty]

/-- C5: for every truck, `optimize_load` on an empty order list returns
the empty solution, and on any list of at most 25 orders in which no
non-empty subset is feasible it also returns the empty well-formed
solution with payout 0. -/
theorem optimize_load_empty_infeasible (truck : Truck) :
    optimize_load truck [] = ⟨[], 0, 0, 0⟩ ∧
    ∀ orders : List Order, orders.length ≤ 25 →
      (∀ S : Finset Nat, S.Nonempty → ¬subsetFeasible truck orders S) →
      optimize_load truck orders = ⟨[], 0, 0, 0⟩ := by
  constructor
  · rw [ol_eq, @olb_eq_empty truck [] rfl]
  · intro orders hn hinf
    by_cases h : orders.length = 0
    · rw [ol_eq, olb_eq_empty h]
    · have hB := btBest_bestInv truck orders
      have hmask : (btBest truck orders).mask = 0 := by
        by_contra hne
        have hex : ∃ j, (btBest truck orders).mask.testBit j = true := by
          by_contra hnex
          push_neg at hnex
          refine hne (Nat.eq_of_testBit_eq fun i => ?_)
          rw [Nat.zero_testBit]
          have hi := hnex i
          revert hi
          cases (btBest truck orders).mask.testBit i <;> simp
        obtain ⟨j, hj⟩ := hex
        have hfeas := @subsetFeasible_image truck orders _ hB.2.2.2.2
        have hjT : j ∈ bitsOf (btBest truck orders).mask
            (btCtx truck orders).n :=
          mem_bitsOf.mpr ⟨hB.1 j hj, hj⟩
        exact hinf _ ⟨_, Finset.mem_image_of_mem _ hjT⟩ hfeas
      rw [ol_eq]
      exact olb_empty_of_mask_zero h hmask

/-! ### The bitmask-DP optimizer: the totals loop -/

theorem bitsOf_succ_of_testBit {mask n : Nat} (h : mask.testBit n = true) :
    bitsOf mask (n + 1) = insert n (bitsOf mask n) := by
  ext j
  simp only [mem_bitsOf, Finset.mem_insert]
  constructor
  · rintro ⟨hj, hb⟩
    by_cases hjn : j = n
    · exact Or.inl hjn
    · exact Or.inr ⟨by omega, hb⟩
  · rintro (rfl | ⟨hj, hb⟩)
    · exact ⟨by omega, h⟩
    · exact ⟨by omega, hb⟩

theorem bitsOf_succ_of_not_testBit {mask n : Nat}
    (h : mask.testBit n = false) : bitsOf mask (n + 1) = bitsOf mask n := by
  ext j
  simp only [mem_bitsOf]
  constructor
  · rintro ⟨hj, hb⟩
    refine ⟨?_, hb⟩
    by_cases hjn : j = n
    · rw [hjn] at hb
      rw [hb] at h
      exact absurd h (by simp)
    · omega
  · rintro ⟨hj, hb⟩
    exact ⟨by omega, hb⟩

theorem self_not_mem_bitsOf {mask n : Nat} : n ∉ bitsOf mask n := by
  simp [mem_bitsOf]

theorem bitsOf_zero_right (mask : Nat) : bitsOf mask 0 = ∅ := by
  ext j
  simp [mem_bitsOf]

theorem dpCtx_n (truck : Truck) (orders : List Order) :
    (dpCtx truck orders).n = orders.length := rfl

theorem dpCtx_payouts_getD {truck : Truck} {orders : List Order} {i : Nat}
    (h : i < orders.length) :
    (dpCtx truck orders).payouts.getD i 0 =
      (orders.getD i default).payout_cents := by
  show (orders.map Order.payout_cents).getD i 0 = _
  rw [getD_map _ _ 0 default h]

theorem dpCtx_weights_getD {truck : Truck} {orders : List Order} {i : Nat}
    (h : i < orders.length) :
    (dpCtx truck orders).weights.getD i 0 =
      (orders.getD i default).weight_lbs := by
  show (orders.map Order.weight_lbs).getD i 0 = _
  rw [getD_map _ _ 0 default h]

theorem dpCtx_volumes_getD {truck : Truck} {orders : List Order} {i : Nat}
    (h : i < orders.length) :
    (dpCtx truck orders).volumes.getD i 0 =
      (orders.getD i default).volume_cuft := by
  show (orders.map Order.volume_cuft).getD i 0 = _
  rw [getD_map _ _ 0 default h]

theorem dpCtx_cmask_testBit {truck : Truck} {orders : List Order} {i j : Nat}
    (hi : i < orders.length) :
    ((dpCtx truck orders).cmask.getD i 0).testBit j =
      (decide (j < orders.length) &&
        (i == j ||
          are_orders_compatible (orders.getD i default)
            (orders.getD j default))) := by
  show ((compatible_mask orders).getD i 0).testBit j = _
  rw [compatible_mask_testBit hi]

theorem subset_scan_aux (c : BTCtx) (mask : Nat) :
    ∀ k,
      (((List.range k).foldl (scan_step c mask)
          ⟨0, 0, 0, true⟩).valid = true →
        ((List.range k).foldl (scan_step c mask)
            ⟨0, 0, 0, true⟩).total_weight =
            setSum c.weights (bitsOf mask k) ∧
        ((List.range k).foldl (scan_step c mask)
            ⟨0, 0, 0, true⟩).total_volume =
            setSum c.volumes (bitsOf mask k) ∧
        ((List.range k).foldl (scan_step c mask)
            ⟨0, 0, 0, true⟩).total_payout =
            setSum c.payouts (bitsOf mask k) ∧
        setSum c.weights (bitsOf mask k) ≤ c.max_weight ∧
        setSum c.volumes (bitsOf mask k) ≤ c.max_volume) ∧
      (((List.range k).foldl (scan_step c mask)
          ⟨0, 0, 0, true⟩).valid = false →
        c.max_weight < setSum c.weights (bitsOf mask k) ∨
        c.max_volume < setSum c.volumes (bitsOf mask k)) := by
  intro k
  induction k with
  | zero =>
    constructor
    · intro _
      rw [bitsOf_zero_right]
      simp [setSum_empty]
    · intro h
      rw [List.range_zero, List.foldl_nil] at h
      exact absurd h (by simp)
  | succ k ih =>
    obtain ⟨ih1, ih2⟩ := ih
    rw [List.range_succ, List.foldl_append, List.foldl_cons, List.foldl_nil]
    set prev := (List.range k).foldl (scan_step c mask) ⟨0, 0, 0, true⟩
      with hprev
    by_cases hv : prev.valid = true
    · by_cases htb : mask.testBit k = true
      · have hbits := bitsOf_succ_of_testBit htb
        obtain ⟨e1, e2, e3, e4, e5⟩ := ih1 hv
        have hstep : scan_step c mask prev k =
            { total_weight := prev.total_weight + c.weights.getD k 0
              total_volume := prev.total_volume + c.volumes.getD k 0
              total_payout := prev.total_payout + c.payouts.getD k 0
              valid := decide (prev.total_weight + c.weights.getD k 0 ≤
                  c.max_weight) &&
                decide (prev.total_volume + c.volumes.getD k 0 ≤
                  c.max_volume) } := by
          unfold scan_step
          rw [hv, htb]
          rfl
        rw [hstep, hbits, setSum_insert _ self_not_mem_bitsOf,
          setSum_insert _ self_not_mem_bitsOf,
          setSum_insert _ self_not_mem_bitsOf]
        dsimp only
        constructor
        · intro hvalid
          rcases Bool.and_eq_true _ _ |>.mp hvalid with ⟨hw, hvv⟩
          have hw' := of_decide_eq_true hw
          have hv' := of_decide_eq_true hvv
          refine ⟨by omega, by omega, by omega, by omega, by omega⟩
        · intro hvalid
          rcases Bool.and_eq_false_iff.mp hvalid with hw | hw
          · have := of_decide_eq_false hw
            left
            omega
          · have := of_decide_eq_false hw
            right
            omega
      · have htb' : mask.testBit k = false := by
          revert htb
          cases mask.testBit k <;> simp
        have hbits := bitsOf_succ_of_not_testBit htb'
        have hstep : scan_step c mask prev k = prev := by
          unfold scan_step
          rw [htb']
          simp
        rw [hstep, hbits]
        exact ⟨ih1, ih2⟩
    · have hv' : prev.valid = false := by
        revert hv
        cases prev.valid <;> simp
      have hstep : scan_step c mask prev k = prev := by
        unfold scan_step
        rw [hv']
        simp
      rw [hstep]
      constructor
      · intro h
        exact absurd h (by rw [hv']; simp)
      · intro _
        have hexc := ih2 hv'
        have hsub : bitsOf mask k ⊆ bitsOf mask (k + 1) := by
          intro x hx
          have := mem_bitsOf.mp hx
          exact mem_bitsOf.mpr ⟨by omega, this.2⟩
        rcases hexc with hexc | hexc
        · left
          exact Nat.lt_of_lt_of_le hexc (setSum_mono _ hsub)
        · right
          exact Nat.lt_of_lt_of_le hexc (setSum_mono _ hsub)

theorem subset_scan_of_valid {c : BTCtx} {mask : Nat}
    (h : (subset_scan c mask).valid = true) :
    (subset_scan c mask).total_weight =
        setSum c.weights (bitsOf mask c.n) ∧
    (subset_scan c mask).total_volume =
        setSum c.volumes (bitsOf mask c.n) ∧
    (subset_scan c mask).total_payout =
        setSum c.payouts (bitsOf mask c.n) ∧
    setSum c.weights (bitsOf mask c.n) ≤ c.max_weight ∧
    setSum c.volumes (bitsOf mask c.n) ≤ c.max_volume :=
  (subset_scan_aux c mask c.n).1 h

theorem subset_scan_valid {c : BTCtx} {mask : Nat}
    (hw : setSum c.weights (bitsOf mask c.n) ≤ c.max_weight)
    (hv : setSum c.volumes (bitsOf mask c.n) ≤ c.max_volume) :
    (subset_scan c mask).valid = true := by
  by_cases h : (subset_scan c mask).valid = true
  · exact h
  · have h' : (subset_scan c mask).valid = false := by
      revert h
      cases (subset_scan c mask).valid <;> simp
    have := (subset_scan_aux c mask c.n).2 h'
    omega

/-! ### The bitmask-DP optimizer: subset validity and the main loop -/

theorem is_valid_subset_iff {c : BTCtx} {mask : Nat}
    (hmask : ∀ j, mask.testBit j = true → j < c.n) :
    is_valid_subset c mask = true ↔
      ∀ i j, mask.testBit i = true → mask.testBit j = true →
        (c.cmask.getD i 0).testBit j = true := by
  unfold is_valid_subset
  rw [List.all_eq_true]
  constructor
  · intro hall i j hi hj
    have h := hall i (List.mem_range.mpr (hmask i hi))
    rw [hi] at h
    simp only [Bool.not_true, Bool.false_or] at h
    have heq : c.cmask.getD i 0 &&& mask = mask := beq_iff_eq.mp h
    have hbit := congrArg (fun m => m.testBit j) heq
    simp only [Nat.testBit_and] at hbit
    rw [hj, Bool.and_true] at hbit
    exact hbit
  · intro hcomp a _
    by_cases hb : mask.testBit a = true
    · have heq : c.cmask.getD a 0 &&& mask = mask := by
        refine Nat.eq_of_testBit_eq fun j => ?_
        rw [Nat.testBit_and]
        by_cases hj : mask.testBit j = true
        · rw [hj, Bool.and_true]
          exact hcomp a j hb hj
        · have hj' : mask.testBit j = false := by
            revert hj
            cases mask.testBit j <;> simp
          rw [hj', Bool.and_false]
      rw [hb, heq]
      simp
    · have hb' : mask.testBit a = false := by
        revert hb
        cases mask.testBit a <;> simp
      simp [hb']

theorem dp_step_mono (c : BTCtx) (b : Best) (mask : Nat) :
    b.payout ≤ (dp_step c b mask).payout := by
  unfold dp_step
  by_cases h1 : (!(subset_scan c mask).valid) = true
  · rw [if_pos h1]
  · rw [if_neg h1]
    by_cases h2 : (subset_scan c mask).total_payout ≤ b.payout
    · rw [if_pos h2]
    · rw [if_neg h2]
      by_cases h3 : (!is_valid_subset c mask) = true
      · rw [if_pos h3]
      · rw [if_neg h3]
        dsimp only
        omega

theorem dp_fold_mono (c : BTCtx) :
    ∀ (L : List Nat) (b : Best), b.payout ≤ (L.foldl (dp_step c) b).payout := by
  intro L
  induction L with
  | nil => intro b; exact Nat.le_refl _
  | cons m L ih =>
    intro b
    rw [List.foldl_cons]
    exact Nat.le_trans (dp_step_mono c b m) (ih _)

theorem dp_step_sound {c : BTCtx} {b : Best} {mask : Nat}
    (hmask : ∀ j, mask.testBit j = true → j < c.n) (hb : BestInv c b) :
    BestInv c (dp_step c b mask) := by
  unfold dp_step
  by_cases h1 : (!(subset_scan c mask).valid) = true
  · rw [if_pos h1]
    exact hb
  · rw [if_neg h1]
    by_cases h2 : (subset_scan c mask).total_payout ≤ b.payout
    · rw [if_pos h2]
      exact hb
    · rw [if_neg h2]
      by_cases h3 : (!is_valid_subset c mask) = true
      · rw [if_pos h3]
        exact hb
      · rw [if_neg h3]
        have hvalid : (subset_scan c mask).valid = true := by
          revert h1
          cases (subset_scan c mask).valid <;> simp
        have hvs : is_valid_subset c mask = true := by
          revert h3
          cases is_valid_subset c mask <;> simp
        obtain ⟨e1, e2, e3, e4, e5⟩ := subset_scan_of_valid hvalid
        refine ⟨hmask, ?_, ?_, ?_, ?_⟩
        · exact e3
        · exact e1
        · exact e2
        · refine ⟨fun i hi => (mem_bitsOf.mp hi).1, e4, e5, ?_⟩
          intro i hi j hj
          exact (is_valid_subset_iff hmask).mp hvs i j
            (mem_bitsOf.mp hi).2 (mem_bitsOf.mp hj).2

theorem dp_fold_sound {c : BTCtx} :
    ∀ (L : List Nat) (b : Best),
      (∀ m ∈ L, ∀ j, m.testBit j = true → j < c.n) → BestInv c b →
      BestInv c (L.foldl (dp_step c) b) := by
  intro L
  induction L with
  | nil => intro b _ hb; exact hb
  | cons m L ih =>
    intro b hL hb
    rw [List.foldl_cons]
    exact ih _ (fun m2 hm2 => hL m2 (List.mem_cons.mpr (Or.inr hm2)))
      (dp_step_sound (hL m (List.mem_cons.mpr (Or.inl rfl))) hb)

theorem dp_step_covers {c : BTCtx} {mask : Nat} (b : Best)
    (hmask : ∀ j, mask.testBit j = true → j < c.n)
    (hF : Feasible c (bitsOf mask c.n)) :
    setSum c.payouts (bitsOf mask c.n) ≤ (dp_step c b mask).payout := by
  obtain ⟨f1, f2, f3, f4⟩ := hF
  have hvalid : (subset_scan c mask).valid = true := subset_scan_valid f2 f3
  obtain ⟨e1, e2, e3, _, _⟩ := subset_scan_of_valid hvalid
  unfold dp_step
  have h1 : (!(subset_scan c mask).valid) = true ↔ False := by
    rw [hvalid]
    simp
  rw [if_neg (by rw [h1]; exact not_false)]
  by_cases h2 : (subset_scan c mask).total_payout ≤ b.payout
  · rw [if_pos h2]
    rw [e3] at h2
    exact Nat.le_trans h2 (Nat.le_refl _)
  · rw [if_neg h2]
    have hvs : is_valid_subset c mask = true := by
      refine (is_valid_subset_iff hmask).mpr fun i j hi hj => ?_
      exact f4 i (mem_bitsOf.mpr ⟨hmask i hi, hi⟩)
        j (mem_bitsOf.mpr ⟨hmask j hj, hj⟩)
    have h3 : (!is_valid_subset c mask) = false := by
      rw [hvs]
      rfl
    rw [if_neg (by rw [h3]; simp)]
    dsimp only
    rw [e3]

theorem dp_fold_covers {c : BTCtx} {mask : Nat}
    (hmask : ∀ j, mask.testBit j = true → j < c.n)
    (hF : Feasible c (bitsOf mask c.n)) :
    ∀ (L : List Nat) (b : Best), mask ∈ L →
      setSum c.payouts (bitsOf mask c.n) ≤ (L.foldl (dp_step c) b).payout := by
  intro L
  induction L with
  | nil => intro b hm; exact absurd hm (List.not_mem_nil mask)
  | cons m L ih =>
    intro b hm
    rw [List.foldl_cons]
    rcases List.mem_cons.mp hm with rfl | hm2
    · exact Nat.le_trans (dp_step_covers b hmask hF) (dp_fold_mono c L _)
    · exact ih _ hm2

/-! ### The bitmask-DP optimizer: characterization of the best payout -/

theorem mem_dp_range {n m : Nat} (hm : m ∈ List.range' 1 (2 ^ n - 1)) :
    1 ≤ m ∧ m < 2 ^ n := by
  rw [List.mem_range'_1] at hm
  have h2 := Nat.two_pow_pos n
  omega

theorem testBit_lt_of_lt_two_pow {m n j : Nat} (hm : m < 2 ^ n)
    (hj : m.testBit j = true) : j < n := by
  by_contra h
  have h2 : 2 ^ n ≤ 2 ^ j := Nat.pow_le_pow_right (by omega) (by omega)
  have h3 := Nat.testBit_implies_ge hj
  omega

theorem dpBest_bestInv (truck : Truck) (orders : List Order) :
    BestInv (dpCtx truck orders) (dpBest truck orders) := by
  unfold dpBest
  refine dp_fold_sound _ _ (fun m hm j hj => ?_) (bestInv_init _)
  exact testBit_lt_of_lt_two_pow (mem_dp_range hm).2 hj

theorem bitsOf_maskOfPred {S : Finset Nat} {n : Nat}
    (hS : ∀ p ∈ S, p < n) :
    bitsOf (maskOfPred (fun j => decide (j ∈ S)) n) n = S := by
  ext j
  rw [mem_bitsOf, maskOfPred_testBit]
  constructor
  · rintro ⟨hj, hb⟩
    rcases Bool.and_eq_true _ _ |>.mp hb with ⟨_, hb2⟩
    exact of_decide_eq_true hb2
  · intro hj
    have hjn := hS j hj
    refine ⟨hjn, ?_⟩
    rw [decide_eq_true hjn, decide_eq_true hj]
    rfl

theorem dpBest_covers {truck : Truck} {orders : List Order} {S : Finset Nat}
    (hF : Feasible (dpCtx truck orders) S) :
    setSum (dpCtx truck orders).payouts S ≤ (dpBest truck orders).payout := by
  by_cases hS : S = ∅
  · rw [hS, setSum_empty]
    exact Nat.zero_le _
  · obtain ⟨p, hp⟩ := Finset.nonempty_iff_ne_empty.mpr hS
    have hSn : ∀ q ∈ S, q < orders.length := fun q hq => hF.1 q hq
    have hbits : bitsOf (maskOfPred (fun j => decide (j ∈ S))
        orders.length) orders.length = S := bitsOf_maskOfPred hSn
    have hmaskpos : 1 ≤ maskOfPred (fun j => decide (j ∈ S)) orders.length := by
      have hbp : (maskOfPred (fun j => decide (j ∈ S))
          orders.length).testBit p = true := by
        rw [maskOfPred_testBit, decide_eq_true (hSn p hp),
          decide_eq_true hp]
        rfl
      by_contra h
      have h0 : maskOfPred (fun j => decide (j ∈ S)) orders.length = 0 := by
        omega
      rw [h0, Nat.zero_testBit] at hbp
      exact absurd hbp (by simp)
    have hmasklt : maskOfPred (fun j => decide (j ∈ S)) orders.length <
        2 ^ orders.length := maskOfPred_lt _ _
    have hmem : maskOfPred (fun j => decide (j ∈ S)) orders.length ∈
        List.range' 1 (2 ^ orders.length - 1) := by
      rw [List.mem_range'_1]
      have := Nat.two_pow_pos orders.length
      omega
    have hcov := dp_fold_covers (c := dpCtx truck orders)
      (fun j hj => testBit_lt_of_lt_two_pow hmasklt hj)
      (by
        show Feasible _ (bitsOf _ (dpCtx truck orders).n)
        rw [dpCtx_n, hbits]
        exact hF)
      (List.range' 1 (2 ^ orders.length - 1)) ⟨0, 0, 0, 0⟩ hmem
    rw [dpCtx_n, hbits] at hcov
    exact hcov

theorem subsetPayout_eq_dpCtx {truck : Truck} {orders : List Order}
    {S : Finset Nat} (hS : ∀ p ∈ S, p < orders.length) :
    setSum (dpCtx truck orders).payouts S = subsetPayout orders S :=
  Finset.sum_congr rfl fun p hp => dpCtx_payouts_getD (hS p hp)

theorem feasible_dpCtx_iff {truck : Truck} {orders : List Order}
    {S : Finset Nat} :
    Feasible (dpCtx truck orders) S ↔ subsetFeasible truck orders S := by
  constructor
  · rintro ⟨f1, f2, f3, f4⟩
    have hvalid : ∀ p ∈ S, p < orders.length := f1
    refine ⟨hvalid, ?_, ?_, ?_⟩
    · have he : setSum (dpCtx truck orders).weights S =
          subsetWeight orders S :=
        Finset.sum_congr rfl fun p hp => dpCtx_weights_getD (hvalid p hp)
      rw [← he]
      exact f2
    · have he : setSum (dpCtx truck orders).volumes S =
          subsetVolume orders S :=
        Finset.sum_congr rfl fun p hp => dpCtx_volumes_getD (hvalid p hp)
      rw [← he]
      exact f3
    · intro p hp q hq hpq
      have hbit := f4 p hp q hq
      rw [dpCtx_cmask_testBit (hvalid p hp)] at hbit
      rcases Bool.and_eq_true _ _ |>.mp hbit with ⟨_, hor⟩
      rcases Bool.or_eq_true _ _ |>.mp hor with he | hc
      · exact absurd (beq_iff_eq.mp he) hpq
      · exact hc
  · rintro ⟨h1, h2, h3, h4⟩
    refine ⟨h1, ?_, ?_, ?_⟩
    · have he : setSum (dpCtx truck orders).weights S =
          subsetWeight orders S :=
        Finset.sum_congr rfl fun p hp => dpCtx_weights_getD (h1 p hp)
      rw [he]
      exact h2
    · have he : setSum (dpCtx truck orders).volumes S =
          subsetVolume orders S :=
        Finset.sum_congr rfl fun p hp => dpCtx_volumes_getD (h1 p hp)
      rw [he]
      exact h3
    · intro i hi j hj
      rw [dpCtx_cmask_testBit (h1 i hi)]
      by_cases hij : i = j
      · simp [hij, h1 j hj]
      · rw [decide_eq_true (h1 j hj), Bool.true_and, h4 i hi j hj hij,
          Bool.or_true]

theorem oldp_eq_empty {truck : Truck} {orders : List Order}
    (h : orders.length = 0) :
    optimize_load_bitmask_dp truck orders = ⟨[], 0, 0, 0⟩ := by
  simp only [optimize_load_bitmask_dp]
  rw [if_pos h]

theorem oldp_payout {truck : Truck} {orders : List Order}
    (h : ¬orders.length = 0) :
    (optimize_load_bitmask_dp truck orders).total_payout_cents =
      (dpBest truck orders).payout := by
  simp only [optimize_load_bitmask_dp]
  rw [if_neg h]

/-- C9: equivalence of the two optimizers — for every truck and every
order list, `optimize_load_bitmask_dp` and `optimize_load_backtracking`
return results with equal `total_payout_cents`, and `optimize_load` is
definitionally equal to `optimize_load_backtracking`. -/
theorem optimizers_equivalent (truck : Truck) (orders : List Order) :
    (optimize_load_bitmask_dp truck orders).total_payout_cents =
      (optimize_load_backtracking truck orders).total_payout_cents ∧
    optimize_load = optimize_load_backtracking := by
  refine ⟨?_, rfl⟩
  by_cases h : orders.length = 0
  · rw [oldp_eq_empty h, olb_eq_empty h]
  · rw [oldp_payout h, olb_payout h]
    refine Nat.le_antisymm ?_ ?_
    · have hdpB := dpBest_bestInv truck orders
      have hvalid : ∀ p ∈ bitsOf (dpBest truck orders).mask
          (dpCtx truck orders).n, p < orders.length :=
        fun p hp => (mem_bitsOf.mp hp).1
      have hsub : subsetFeasible truck orders
          (bitsOf (dpBest truck orders).mask (dpCtx truck orders).n) :=
        feasible_dpCtx_iff.mp hdpB.2.2.2.2
      have hT := feasible_toSorted hsub
      have hopt := btBest_opt truck orders _
        (fun j hj => Finset.mem_range.mp (Finset.mem_filter.mp hj).1) hT
      rw [setSum_btCtx_toSorted hvalid _ Order.payout_cents
        (fun i hi => btCtx_payouts_getD hi)] at hopt
      rw [hdpB.2.1, subsetPayout_eq_dpCtx hvalid]
      exact hopt
    · have hbtB := btBest_bestInv truck orders
      have hvalid : ∀ i ∈ bitsOf (btBest truck orders).mask
          (btCtx truck orders).n, i < orders.length :=
        fun i hi => (mem_bitsOf.mp hi).1
      have hsub := @subsetFeasible_image truck orders _ hbtB.2.2.2.2
      have hcov := dpBest_covers (feasible_dpCtx_iff.mpr hsub)
      rw [subsetPayout_eq_dpCtx hsub.1, subsetPayout_image hvalid] at hcov
      rw [hbtB.2.1]
      have he : setSum (btCtx truck orders).payouts
          (bitsOf (btBest truck orders).mask (btCtx truck orders).n) =
          ∑ i ∈ bitsOf (btBest truck orders).mask (btCtx truck orders).n,
            (orders.getD ((sortedIndices orders).getD i 0)
              default).payout_cents :=
        Finset.sum_congr rfl fun i hi => btCtx_payouts_getD (hvalid i hi)
      rw [he]
      exact hcov

/-! ### Witnesses: the claim theorems applied at concrete inputs -/

theorem optimize_load_optimal_witness :
    subsetPayout exOrders {0, 1} ≤
      (optimize_load exTruck exOrders).total_payout_cents :=
  optimize_load_optimal exTruck exOrders (by decide) (by decide) (by decide)
    {0, 1} (by decide)

theorem optimize_load_compatible_witness :
    are_orders_compatible (exOrders.getD 0 default)
      (exOrders.getD 1 default) = true :=
  optimize_load_compatible exTruck exOrders 0 1 (by decide) (by decide)
    (by decide)

theorem optimize_load_aggregates_witness :
    (optimize_load exTruck exOrders).selected_indices.Nodup ∧
    (optimize_load exTruck exOrders).total_payout_cents =
      ((optimize_load exTruck exOrders).selected_indices.map
        (fun p => (exOrders.getD p default).payout_cents)).sum :=
  ⟨(optimize_load_aggregates exTruck exOrders).1,
    (optimize_load_aggregates exTruck exOrders).2.2.1⟩

theorem optimize_load_empty_infeasible_witness :
    optimize_load infTruck [] = ⟨[], 0, 0, 0⟩ ∧
    optimize_load infTruck infOrders = ⟨[], 0, 0, 0⟩ :=
  ⟨(optimize_load_empty_infeasible infTruck).1,
    (optimize_load_empty_infeasible infTruck).2 infOrders (by decide)
      (by
        intro S hS hF
        obtain ⟨p, hp⟩ := hS
        have h1 := hF.1 p hp
        have hp0 : p = 0 := by
          have : infOrders.length = 1 := rfl
          omega
        rw [hp0] at hp
        have hge : (infOrders.getD 0 default).weight_lbs ≤
            subsetWeight infOrders S :=
          Finset.single_le_sum
            (f := fun q => (infOrders.getD q default).weight_lbs)
            (fun q _ => Nat.zero_le _) hp
        have h5 : (infOrders.getD 0 default).weight_lbs = 5 := rfl
        have h2 := hF.2.1
        have h3 : infTruck.max_weight_lbs = 1 := rfl
        omega)⟩

theorem compatibility_reflexive_symmetric_witness :
    ((compatible_mask exOrders).getD 0 0).testBit 0 = true :=
  compatibility_reflexive_symmetric.2.1 exOrders 0 (by decide)

theorem optimize_load_no_zero_payout_witness :
    (exOrders.getD 1 default).payout_cents ≠ 0 :=
  (optimize_load_no_zero_payout exTruck exOrders).1 1 (by decide)

end SmartLoad
